import Mathlib

/-!
# A verification development for the FeynmanDAG combinatorial core

Shallow embedding of `src/FeynmanDAG` (particles, the ABC interaction rule,
the branch enumerator `branch_calculator`, and the diagram materializer
`FeynmanDiagrams.get_FD`) together with proofs about the embedded code.

Modelling conventions:
* Python exceptions (`ArgumentError`, `IndexError`, `ValueError`,
  `StopIteration`, and the `NameError`s the module would actually raise since
  `ArgumentError` is never defined) are modelled by `Except Err`; the claims
  never distinguish the exact Python exception class, only that the call fails.
* Python `float`/`complex` values are modelled as exact rationals
  (`ℚ`, and `CQ` for complex numbers); the numeric literals of the source
  (`0.1`, `2.0`, `1.0`, `0.5`) are exactly representable intentions of the
  code and are mapped to the corresponding rationals.
* Python object identity: particles are compared with `==`, which for the
  particle classes (no `__eq__`) is object identity.  The embedding uses
  structural equality; all theorems about concrete inputs use particles with
  pairwise distinct names, where the two notions agree, and the universal
  theorems either do not depend on which structurally-equal duplicate is
  removed or carry a distinctness hypothesis.
-/

/-- The three particle types of the ABC model (`ParticleA`, `ParticleB`,
`ParticleC` in `particles.py`); the Python classes carry no data beyond the
class tag, the name, the direction flag and the reality flag. -/
inductive PType where
  | A
  | B
  | C
deriving DecidableEq, Repr

/-- A particle of the labelling (`_FD`) variant: the class tag together with
the attributes set by `Particle.__init__(self, name, is_inc, is_real)`. -/
structure Particle where
  ptype : PType
  name : String
  is_inc : Bool
  is_real : Bool
deriving DecidableEq, Repr

/-- The letter used by `interaction.py` when generating composite names
(the second component of the `OUTPUT_PARTICLE_FD` values). -/
def typeLetter : PType → String
  | .A => "A"
  | .B => "B"
  | .C => "C"

/-- `Interactions_FD.OUTPUT_PARTICLE_FD`: for an ordered pair of *distinct*
types, the type of the produced particle together with its name letter;
`none` models absence of the key (same-type pairs). -/
def OUTPUT_PARTICLE_FD : PType → PType → Option (PType × String)
  | .A, .B => some (.C, "C")
  | .B, .A => some (.C, "C")
  | .A, .C => some (.B, "B")
  | .C, .A => some (.B, "B")
  | .B, .C => some (.A, "A")
  | .C, .B => some (.A, "A")
  | _, _ => none

/-- Error kinds; the Python code raises `ArgumentError` (in fact a `NameError`,
since `ArgumentError` is nowhere defined), `IndexError`/`ValueError` from list
operations, `ValueError` from `np.max` of an empty sequence, and
`StopIteration` from an exhausted operation iterator.  The claims only ever
distinguish the "incompatible interaction" and "missing state" kinds. -/
inductive Err where
  | invalidInteraction
  | invalidArity
  | missingState
  | valueError
  | badState
deriving DecidableEq, Repr

/-- `Interactions_FD.__Interact_ABC_2to1_FD`: look the ordered class pair up in
`OUTPUT_PARTICLE_FD`; on success construct
`p3_type(p3_type_str+"("+p1.name+","+p2.name+")", True, False)`.
The constructor signature is `(name, is_inc, is_real)`, so the produced
particle has `is_inc = True` and `is_real = False`. -/
def Interact_ABC_2to1_FD (p1 p2 : Particle) : Except Err Particle :=
  match OUTPUT_PARTICLE_FD p1.ptype p2.ptype with
  | some (t, s) =>
      .ok { ptype := t, name := s ++ "(" ++ p1.name ++ "," ++ p2.name ++ ")",
            is_inc := true, is_real := false }
  | none => .error .invalidInteraction

/-- The `check_list` loop of `__Interact_ABC_3to0_FD` (and of the state
variant): start from `[A, B, C]` and remove each input's class when present. -/
def checkListRemove (ts : List PType) (cl : List PType) : List PType :=
  ts.foldl (fun acc t => if t ∈ acc then acc.erase t else acc) cl

/-- `Interactions_FD.__Interact_ABC_3to0_FD`: succeeds with the matrix-element
label `"M(n1,n2,n3)"` iff the three classes exhaust `[A, B, C]`. -/
def Interact_ABC_3to0_FD (p1 p2 p3 : Particle) : Except Err String :=
  if checkListRemove [p1.ptype, p2.ptype, p3.ptype] [.A, .B, .C] = [] then
    .ok ("M(" ++ p1.name ++ "," ++ p2.name ++ "," ++ p3.name ++ ")")
  else
    .error .invalidInteraction

/-- Result of `Interactions_FD.__call__`: a particle (2-to-1 case) or the
matrix-element string (3-to-0 case). -/
inductive FDResult where
  | part (p : Particle)
  | matrix (s : String)
deriving DecidableEq, Repr

/-- `Interactions_FD.__call__`: dispatch on the number of interacting
particles; any other arity raises. -/
def Interactions_FD_call (ps : List Particle) : Except Err FDResult :=
  match ps with
  | [p1, p2] => (Interact_ABC_2to1_FD p1 p2).map .part
  | [p1, p2, p3] => (Interact_ABC_3to0_FD p1 p2 p3).map .matrix
  | _ => .error .invalidArity

/-! ## The numeric ("state") particle variant -/

/-- Exact complex numbers over ℚ, modelling Python `complex` values. -/
structure CQ where
  re : ℚ
  im : ℚ
deriving DecidableEq, Repr

instance : Mul CQ :=
  ⟨fun z w => ⟨z.re * w.re - z.im * w.im, z.re * w.im + z.im * w.re⟩⟩

instance : Neg CQ := ⟨fun z => ⟨-z.re, -z.im⟩⟩

instance : OfNat CQ 1 := ⟨⟨1, 0⟩⟩

/-- The imaginary unit `1j`. -/
def CQ.I : CQ := ⟨0, 1⟩

/-- Multiplication of a complex value by a real (rational) scalar. -/
def CQ.smul (q : ℚ) (z : CQ) : CQ := ⟨q * z.re, q * z.im⟩

/-- A particle of the numeric variant (`ParticleA_state` etc. in
`particles.py`): the labelling attributes plus the momentum modulus and the
raw stored state (the private `__state` attribute). -/
structure ParticleS where
  ptype : PType
  name : String
  is_inc : Bool
  is_real : Bool
  mom : ℚ
  rawState : CQ
deriving DecidableEq, Repr

/-- `ParticleA_state.__init__` (identical for B and C): with no explicit state
a real particle defaults to state `1` and a virtual particle raises
`ArgumentError("Virtual particle needs to have state")`. -/
def ParticleS.make (t : PType) (name : String) (is_inc is_real : Bool)
    (mom : ℚ) (state? : Option CQ) : Except Err ParticleS :=
  match state? with
  | some s => .ok ⟨t, name, is_inc, is_real, mom, s⟩
  | none =>
      if is_real then .ok ⟨t, name, is_inc, is_real, mom, ⟨1, 0⟩⟩
      else .error .missingState

/-- The per-type rest mass: `ParticleA.mass = 2.0`, `ParticleB.mass = 1.0`,
`ParticleC.mass = 0.5`. -/
def PType.mass : PType → ℚ
  | .A => 2
  | .B => 1
  | .C => 1 / 2

/-- The value `1j/(mom**2 - mass**2)` returned by the `propagator` property on
the virtual branch (division of `1j` by a real number). -/
def ParticleS.propagatorVal (p : ParticleS) : CQ :=
  ⟨0, 1 / (p.mom ^ 2 - p.ptype.mass ^ 2)⟩

/-- The `propagator` property: defined for virtual particles only; a real
particle raises `ArgumentError("External particle does not have propagator")`. -/
def ParticleS.propagator (p : ParticleS) : Except Err CQ :=
  if ¬p.is_real then .ok p.propagatorVal else .error .valueError

/-- The `state` property: the raw stored state for a real particle, the raw
state multiplied by the propagator for a virtual one. -/
def ParticleS.state (p : ParticleS) : CQ :=
  if p.is_real then p.rawState else p.rawState * p.propagatorVal

/-- The `signed_mom` property: `+mom` for an incoming particle, `-mom` for an
outgoing one. -/
def ParticleS.signed_mom (p : ParticleS) : ℚ :=
  if p.is_inc then p.mom else -p.mom

/-- `Interactions_state.LAMBDA_ABC = 0.1`. -/
def LAMBDA_ABC : ℚ := 1 / 10

/-- `Interactions_state.__Interact_ABC_2to1_state`: look up the class pair in
`OUTPUT_PARTICLE_STATE` (same shape as the FD table); on success construct
`p3_type(name, True, False, p1.signed_mom + p2.signed_mom,
-1j*LAMBDA_ABC*p1.state*p2.state)`. -/
def Interact_ABC_2to1_state (p1 p2 : ParticleS) : Except Err ParticleS :=
  match OUTPUT_PARTICLE_FD p1.ptype p2.ptype with
  | some (t, s) =>
      ParticleS.make t (s ++ "(" ++ p1.name ++ "," ++ p2.name ++ ")")
        true false (p1.signed_mom + p2.signed_mom)
        (some ((CQ.smul LAMBDA_ABC (-CQ.I)) * p1.state * p2.state))
  | none => .error .invalidInteraction

/-- `Interactions_state.__Interact_ABC_3to0_state`: the complex matrix element
`p1.state*p2.state*p3.state*-1j*LAMBDA_ABC` when the three classes exhaust
`[A, B, C]`. -/
def Interact_ABC_3to0_state (p1 p2 p3 : ParticleS) : Except Err CQ :=
  if checkListRemove [p1.ptype, p2.ptype, p3.ptype] [.A, .B, .C] = [] then
    .ok (CQ.smul LAMBDA_ABC (p1.state * p2.state * p3.state * (-CQ.I)))
  else
    .error .invalidInteraction

/-! ## The branch enumerator (`algorithm.py`) -/

/-- `filter_ABC`: drop every particle of the same class as `particle`
(`particle` itself included), then reinsert `particle` at the front. -/
def filter_ABC (particle : Particle) (particles : List Particle) : List Particle :=
  particle :: particles.filter (fun q => q.ptype != particle.ptype)

/-- `itertools.combinations(l, 2)` in its lexicographic generation order. -/
def combinations2 {α : Type} : List α → List (α × α)
  | [] => []
  | x :: xs => xs.map (fun y => (x, y)) ++ combinations2 xs

/-- `max_comb`: the number of 2-combinations of each particle's filtered list,
then `np.where(arr == np.max(arr))[0][0]`, the first position achieving the
maximum; `np.max` of an empty sequence raises `ValueError`. -/
def max_comb (particles : List Particle) : Except Err Nat :=
  let counts := particles.map
    (fun k => (combinations2 (filter_ABC k particles)).length)
  match counts.max? with
  | none => .error .valueError
  | some m => .ok (counts.indexOf m)

/-- A recorded merge operation: the index pair of a 2-particle merge or the
index triple of the terminal 3-particle merge. -/
inductive Op where
  | pair (i j : Nat)
  | triple (i j k : Nat)
deriving DecidableEq, Repr

/-- The value of a branch dictionary in `comb`'s output: a particle list for a
2-merge level, the matrix-element string for the terminal level. -/
inductive Payload where
  | parts (l : List Particle)
  | matrix (s : String)
deriving DecidableEq, Repr

/-- The child-producing loop of `comb` (the `for i in range(len(part_comb_filt))`
body): label `gen+str(i+1)+"."`, record the positions of the two particles via
`list.index`, merge them with `Interactions_FD` (the 2-to-1 case of its
`__call__`), and build the next particle list by removing both and inserting
the merged particle at the front. -/
def combChildren (particles : List Particle) (gen : String) (old : List Op) :
    List (Particle × Particle) → Nat →
    Except Err (List (String × Payload) × List (String × List Op))
  | [], _ => .ok ([], [])
  | (a, b) :: rest, i => do
    let keys := gen ++ Nat.repr (i + 1) ++ "."
    let values := Op.pair (particles.indexOf a) (particles.indexOf b)
    let newP ← Interact_ABC_2to1_FD a b
    let particles_copy := newP :: (particles.erase a).erase b
    let (nps, poss) ← combChildren particles gen old rest (i + 1)
    .ok ((keys, .parts particles_copy) :: nps, (keys, old ++ [values]) :: poss)

/-- The body of `comb` once `particles`, `gen`, `old_values` and `index` are
fixed: for a non-3 list, pair the selected particle with each retained partner
(`part_comb[0:len(inter)-1]`); for a 3-list, append the `(0,1,2)` terminal
operation under the unchanged label and store the matrix-element string. -/
def combCore (particles : List Particle) (gen : String) (old : List Op)
    (index : Nat) :
    Except Err (List (String × Payload) × List (String × List Op)) :=
  if particles.length ≠ 3 then
    match particles[index]? with
    | none => .error .valueError
    | some particle =>
      let inter := filter_ABC particle particles
      let part_comb := combinations2 inter
      let part_comb_filt := part_comb.take (inter.length - 1)
      combChildren particles gen old part_comb_filt 0
  else
    match particles with
    | [p1, p2, p3] => do
        let s ← Interact_ABC_3to0_FD p1 p2 p3
        .ok ([(gen, .matrix s)], [(gen, old ++ [Op.triple 0 1 2])])
    | _ => .error .badState

/-- `comb` on a plain particle list (the first enumeration level):
`gen = "branch "`, empty history, and the index from `max_comb`. -/
def comb_list (old_particles : List Particle) :
    Except Err (List (String × Payload) × List (String × List Op)) := do
  let index ← max_comb old_particles
  combCore old_particles "branch " [] index

/-- In the dict case `comb` passes the branch dictionary itself to `max_comb`.
Iterating a one-entry Python dict yields its single string key; the class
filter of `filter_ABC` removes every same-class (string) element, leaving the
singleton `[key]`, which has no 2-combinations.  The count list is therefore
`[0]` and the first-argmax position is `0`, whatever the branch contains. -/
def max_comb_dict (_ : String × Payload) : Nat := 0

/-- `comb` on a branch dictionary (levels after the first): `gen` and the
history come from the dictionaries and the index from `max_comb` applied to
the dictionary (see `max_comb_dict`).  A matrix-element payload (only possibly
present after the terminal level) makes the Python code index into a string
and fail with an `AttributeError`; it is modelled as an error. -/
def comb_dict (old_particles : String × Payload)
    (operations : String × List Op) :
    Except Err (List (String × Payload) × List (String × List Op)) :=
  match old_particles.2 with
  | .parts particles =>
      combCore particles old_particles.1 operations.2
        (max_comb_dict old_particles)
  | .matrix _ => .error .badState

/-- The first argument of `comb_rec`: the raw external list on the first call,
a list of branch dictionaries afterwards. -/
inductive CRInput where
  | raw (ps : List Particle)
  | branches (bs : List (String × Payload))

/-- The per-branch loop of `comb_rec` (`for i in range(len(list_of_particles))`
with the inner `for j in range(len(new_op))` append loop). A missing
`list_of_operations[i]` raises `IndexError`; `new_part[j]` is read only for
`j < len(new_op)`, so a shorter `new_part` would also raise `IndexError`. -/
def comb_rec_go : List (String × Payload) → List (String × List Op) →
    Except Err (List (String × Payload) × List (String × List Op))
  | [], _ => .ok ([], [])
  | b :: bs, ops =>
    match ops with
    | [] => .error .valueError
    | o :: os => do
      let (new_part, new_op) ← comb_dict b o
      if new_op.length ≤ new_part.length then do
        let (nps, nops) ← comb_rec_go bs os
        .ok (new_part.take new_op.length ++ nps, new_op ++ nops)
      else .error .valueError

/-- `comb_rec`.  With an empty operation list it performs the first iteration
by calling `comb` twice on `list_of_particles` and pairing the first call's
particles with the second call's operations.  When `list_of_particles` is (as
only happens on degenerate flows) already a list of branch dictionaries,
`comb` type-dispatches on `list`: `max_comb` over dictionaries yields all-zero
counts (`ValueError` on an empty list), a 3-element dictionary list reaches
the 3-to-0 interaction of non-particles and raises, and any other length finds
no same-class-distinct partner and produces no children.  A raw particle list
together with a nonempty operation list would make `comb` fall through both
type tests and fail on an unbound local.  The defensive
`if [] in new_particles and [] in new_operations` removal of the source is
dead code here: the elements are dictionaries, never equal to `[]`. -/
def comb_rec (list_of_particles : CRInput)
    (list_of_operations : List (String × List Op)) :
    Except Err (List (String × Payload) × List (String × List Op)) :=
  if list_of_operations = [] then
    match list_of_particles with
    | .raw ps => do
        let r1 ← comb_list ps
        let r2 ← comb_list ps
        .ok (r1.1, r2.2)
    | .branches [] => .error .valueError
    | .branches bs =>
        if bs.length = 3 then .error .invalidInteraction
        else .ok ([], [])
  else
    match list_of_particles with
    | .raw _ => .error .badState
    | .branches bs => comb_rec_go bs list_of_operations

/-- The loop of `branch_calculator`: each iteration calls `comb_rec` twice
with the same arguments, keeps the particle branches of the first call and
the operation branches of the second. -/
def branch_calc_go : CRInput → List (String × List Op) → Nat →
    Except Err (List (String × List Op))
  | _, FD, 0 => .ok FD
  | cur, FD, n + 1 => do
    let r1 ← comb_rec cur FD
    let r2 ← comb_rec cur FD
    branch_calc_go (.branches r1.1) r2.2 n

/-- `branch_calculator`: starting from the external particle list and an empty
`FD`, iterate `comb_rec` exactly `len(particles) - 2` times (the range is
evaluated once, before `particles` is rebound) and return the final operation
branches. -/
def branch_calculator (particles : List Particle) :
    Except Err (List (String × List Op)) :=
  branch_calc_go (.raw particles) [] (particles.length - 2)

/-- The optimised loop body described by the claim on the double `comb_rec`
call: call `comb_rec` exactly once per iteration and use both components of
that single result. -/
def branch_calc_go_opt : CRInput → List (String × List Op) → Nat →
    Except Err (List (String × List Op))
  | _, FD, 0 => .ok FD
  | cur, FD, n + 1 => do
    let r ← comb_rec cur FD
    branch_calc_go_opt (.branches r.1) r.2 n

/-- `branch_calculator` with the single-call loop. -/
def branch_calculator_opt (particles : List Particle) :
    Except Err (List (String × List Op)) :=
  branch_calc_go_opt (.raw particles) [] (particles.length - 2)

/-! ## The diagram materializer (`diagrams.py`, class `FeynmanDiagrams`) -/

/-- The `networkx.Graph` fragment used by `FeynmanDiagrams`: an undirected
graph over string node names; adding an existing node or edge is a no-op, and
adding an edge adds its endpoints. -/
structure Graph where
  nodes : List String
  edges : List (String × String)
deriving DecidableEq, Repr

/-- `Graph.add_node`. -/
def Graph.addNode (g : Graph) (n : String) : Graph :=
  if n ∈ g.nodes then g else { g with nodes := g.nodes ++ [n] }

/-- `Graph.add_nodes_from`. -/
def Graph.addNodes (g : Graph) (ns : List String) : Graph :=
  ns.foldl Graph.addNode g

/-- Undirected edge membership. -/
def Graph.hasEdge (g : Graph) (u v : String) : Bool :=
  (u, v) ∈ g.edges ∨ (v, u) ∈ g.edges

/-- `Graph.add_edge` (and elementwise `add_edges_from`). -/
def Graph.addEdge (g : Graph) (u v : String) : Graph :=
  let g := (g.addNode u).addNode v
  if g.hasEdge u v then g else { g with edges := g.edges ++ [(u, v)] }

/-- The empty `nx.Graph()`. -/
def Graph.emptyG : Graph := ⟨[], []⟩

/-- The mutable state of a `FeynmanDiagrams` object that the claims touch:
`current_particle_list` and `graph` (the history attributes are write-only
for `get_FD` and are not modelled). -/
structure FDState where
  current : List Particle
  graph : Graph

/-- `FeynmanDiagrams.do_next_operation` for a given current operation: remove
the operands (by identity) from a copy of the current list, build the
interaction result, insert it at the front, and extend the graph — for a pair
the result node with an edge to each operand, for the terminal triple the
compound node `part_bf[1]+"+"+part_bf[2]` with an edge from each operand.
The current list is replaced only when the result is a particle (pair case);
out-of-range recorded indices raise `IndexError`. -/
def do_next_operation (st : FDState) (op : Op) : Except Err FDState :=
  match op with
  | .pair i j =>
    match st.current[i]?, st.current[j]? with
    | some a, some b => do
      let final0 := (st.current.erase a).erase b
      let res ← Interact_ABC_2to1_FD a b
      let g := (st.graph.addNodes [a.name, b.name]).addNode res.name
      let g := (g.addEdge res.name a.name).addEdge res.name b.name
      .ok ⟨res :: final0, g⟩
    | _, _ => .error .valueError
  | .triple i j k =>
    match st.current[i]?, st.current[j]?, st.current[k]? with
    | some a, some b, some c => do
      let _ ← Interact_ABC_3to0_FD a b c
      let g := st.graph.addNodes [a.name, b.name, c.name]
      let vertex := b.name ++ "+" ++ c.name
      let g := g.addNode vertex
      let g := ((g.addEdge a.name vertex).addEdge b.name vertex).addEdge c.name vertex
      .ok ⟨st.current, g⟩
    | _, _, _ => .error .valueError

/-- The loop of `get_FD`: `number_of_operations` rounds of
`do_next_operation`, advancing the operation iterator only after a pair
operation (a pair with an exhausted iterator raises `StopIteration`; after a
triple the same operation would be processed again). -/
def get_FD_loop : Nat → Op → List Op → FDState → Except Err Graph
  | 0, _, _, st => .ok st.graph
  | n + 1, cur, queue, st => do
    let st' ← do_next_operation st cur
    match cur with
    | .pair _ _ =>
      match queue with
      | [] => .error .valueError
      | q :: qs => get_FD_loop n q qs st'
    | .triple _ _ _ => get_FD_loop n cur queue st'

/-- `FeynmanDiagrams(external_particles, operations).get_FD()`: the
constructor already draws the first operation (`StopIteration` on an empty
operation list), then the loop body runs once per operation. -/
def get_FD (external_particles : List Particle) (operations : List Op) :
    Except Err Graph :=
  match operations with
  | [] => .error .valueError
  | op0 :: rest => get_FD_loop operations.length op0 rest ⟨external_particles, Graph.emptyG⟩

/-- Straight-line replay of an operation list (the iterator bookkeeping of
`get_FD` removed); proved to agree with `get_FD` on the operation lists the
enumerator produces. -/
def replayG : FDState → List Op → Except Err FDState
  | st, [] => .ok st
  | st, op :: ops => do
    let st' ← do_next_operation st op
    replayG st' ops

/-! ## Proof infrastructure: merge chains, shapes, and name hygiene -/

/-- The merge history of a single enumeration branch: each step records the
positions of the two merged particles in the pre-merge list and rebuilds the
next list exactly as `comb` does. -/
inductive Chain (ext : List Particle) : List Op → List Particle → Prop where
  | nil : Chain ext [] ext
  | step {ops : List Op} {l : List Particle} {i j : Nat} {a b p : Particle} :
      Chain ext ops l → l[i]? = some a → l[j]? = some b →
      Interact_ABC_2to1_FD a b = .ok p →
      Chain ext (ops ++ [.pair i j]) (p :: (l.erase a).erase b)

/-- A branch label consisting of `"branch "` followed by `k` dot-terminated
decimal child indices (each at least 1). -/
def LabelShape (lab : String) (k : Nat) : Prop :=
  ∃ ks : List Nat, ks.length = k ∧ (∀ m ∈ ks, 1 ≤ m) ∧
    lab = "branch " ++ String.join (ks.map (fun m => Nat.repr m ++ "."))

/-- A list of exactly `k` pair operations. -/
def OpsShape (ops : List Op) (k : Nat) : Prop :=
  ops.length = k ∧ ∀ op ∈ ops, ∃ i j, op = Op.pair i j

/-- Invariant of a live (non-terminal) enumerator branch after `k` levels. -/
def BranchMid (ext : List Particle) (N k : Nat)
    (b : String × Payload) (o : String × List Op) : Prop :=
  b.1 = o.1 ∧ LabelShape b.1 k ∧ OpsShape o.2 k ∧
    ∃ l, b.2 = .parts l ∧ Chain ext o.2 l ∧ l.length + k = N

/-- Invariant of a closed enumerator branch of an `N`-particle process. -/
def BranchFin (ext : List Particle) (N : Nat) (o : String × List Op) : Prop :=
  LabelShape o.1 (N - 3) ∧
    ∃ ops0 p1 p2 p3 s, o.2 = ops0 ++ [Op.triple 0 1 2] ∧
      OpsShape ops0 (N - 3) ∧ Chain ext ops0 [p1, p2, p3] ∧
      Interact_ABC_3to0_FD p1 p2 p3 = .ok s

/-- Number of occurrences of a character in a string. -/
def ccount (c : Char) (s : String) : Nat := s.data.count c

/-- The characters reserved by the name-generation scheme of the source:
parentheses and comma from composite names, `+` from the terminal compound
node, and the type letters. -/
def reservedChars : List Char := ['(', ')', ',', '+', 'A', 'B', 'C']

/-- The atom support of a name relative to a finite atom alphabet `A`:
the atoms occurring in the string. -/
def suppOf (A : Finset Char) (s : String) : Finset Char :=
  A.filter (fun c => 0 < ccount c s)

/-- External particle lists with hygienic names: each name is a single
non-reserved character and the names are pairwise distinct.  Under this
hypothesis structural equality of particles coincides with Python object
identity throughout the enumeration and replay. -/
def CleanAtoms (ext : List Particle) : Prop :=
  (∀ p ∈ ext, ∃ c : Char, p.name = String.mk [c] ∧ c ∉ reservedChars) ∧
    (ext.map Particle.name).Nodup

/-- Decidable equality of `Except` values, used to settle concrete runs of
the embedded code by `decide`. -/
instance {ε α : Type} [DecidableEq ε] [DecidableEq α] :
    DecidableEq (Except ε α) := fun x y =>
  match x, y with
  | .error e, .error f =>
    match decEq e f with
    | .isTrue h => .isTrue (congrArg Except.error h)
    | .isFalse h => .isFalse (fun c => h (Except.error.inj c))
  | .error _, .ok _ => .isFalse (fun c => Except.noConfusion c)
  | .ok _, .error _ => .isFalse (fun c => Except.noConfusion c)
  | .ok a, .ok b =>
    match decEq a b with
    | .isTrue h => .isTrue (congrArg Except.ok h)
    | .isFalse h => .isFalse (fun c => h (Except.ok.inj c))

/-! ## Concrete fixtures used by the counterexamples and witnesses -/

/-- An incoming real particle of type A. -/
def extA (n : String) : Particle := ⟨.A, n, true, true⟩

/-- An incoming real particle of type B. -/
def extB (n : String) : Particle := ⟨.B, n, true, true⟩

/-- An incoming real particle of type C. -/
def extC (n : String) : Particle := ⟨.C, n, true, true⟩

/-- The three-particle process `[A, B, C]`. -/
def exList3 : List Particle := [extA "a", extB "b", extC "c"]

/-- The concrete process of the specification's scenario:
`[A(in), A(in), B(in), C(out)]`. -/
def exList4 : List Particle :=
  [extA "a1", extA "a2", extB "b", ⟨.C, "c", false, true⟩]

/-- A six-particle process on which the enumeration completes. -/
def exList6 : List Particle :=
  [extA "a1", extB "b1", extC "c1", extC "c2", extB "b2", extA "a2"]

/-- The particle list of the first branch of `exList6` after the first
enumeration level (the merge of `a1` and `b1`). -/
def exLevel2List : List Particle :=
  [⟨.C, "C(a1,b1)", true, false⟩, extC "c1", extC "c2", extB "b2", extA "a2"]

/-- The incoming real A particle with `state = 1`, `mom = 3` of the numeric
scenario. -/
def exA_state : ParticleS := ⟨.A, "a", true, true, 3, ⟨1, 0⟩⟩

/-- The incoming real B particle with `state = 1`, `mom = 4` of the numeric
scenario. -/
def exB_state : ParticleS := ⟨.B, "b", true, true, 4, ⟨1, 0⟩⟩

/-- The atom alphabet of an external particle list: every character occurring
in an external name. -/
def atomSet (ext : List Particle) : Finset Char :=
  (ext.flatMap (fun p => p.name.data)).toFinset

/-- Name-hygiene invariant over the atom alphabet `A`, relating the list `H`
of all particles created so far (externals first) to the currently alive
list `l`:  every name has a nonempty atom support with each atom occurring at
most once and no `+`; supports are pairwise distinct across `H` and pairwise
disjoint across `l`; every alive particle was created; and a created support
meets an alive one only by being the same particle or nested strictly below
it. -/
structure NameHyg (A : Finset Char) (H l : List Particle) : Prop where
  clean : ∀ p ∈ H, (suppOf A p.name).Nonempty ∧
    (∀ c ∈ A, ccount c p.name ≤ 1) ∧ ccount '+' p.name = 0
  distinctSupp : H.Pairwise (fun p q => suppOf A p.name ≠ suppOf A q.name)
  aliveDisjoint : l.Pairwise (fun p q => suppOf A p.name ∩ suppOf A q.name = ∅)
  aliveSub : ∀ a ∈ l, a ∈ H
  nest : ∀ h ∈ H, ∀ a ∈ l, h = a ∨ suppOf A h.name ∩ suppOf A a.name = ∅ ∨
    suppOf A h.name ⊂ suppOf A a.name

/-- All facts carried along the replay of a merge chain: the replayed state,
the ghost lists of created and consumed particles, conservation, hygiene, and
the exact graph bookkeeping. -/
def ReplayFacts (ext : List Particle) (A : Finset Char)
    (ops : List Op) (l : List Particle) : Prop :=
  ∃ (gr : Graph) (created consumed : List Particle),
    replayG ⟨ext, Graph.emptyG⟩ ops = .ok ⟨l, gr⟩ ∧
    created.length = ops.length ∧
    (l ++ consumed).Perm (ext ++ created) ∧
    NameHyg A (ext ++ created) l ∧
    gr.nodes.Nodup ∧
    (∀ n, n ∈ gr.nodes ↔ n ∈ (created ++ consumed).map Particle.name) ∧
    gr.edges.length = 2 * ops.length ∧
    (∀ e ∈ gr.edges, e.1 ∈ (ext ++ created).map Particle.name ∧
      e.2 ∈ (ext ++ created).map Particle.name)

/-! # Theorems -/

theorem CQ.mk_mul_mk (a b c d : ℚ) :
    (⟨a, b⟩ * ⟨c, d⟩ : CQ) = ⟨a * c - b * d, a * d + b * c⟩ := rfl

theorem CQ.neg_mk (a b : ℚ) : (-(⟨a, b⟩ : CQ)) = ⟨-a, -b⟩ := rfl

theorem CQ.smul_mk (q a b : ℚ) : CQ.smul q ⟨a, b⟩ = ⟨q * a, q * b⟩ := rfl

/-- The loop of `branch_calculator` and its single-call optimisation agree:
`comb_rec` is a pure function of its arguments, so the second call of each
iteration returns exactly what the first did. -/
theorem branch_calc_go_eq_opt (n : Nat) :
    ∀ cur FD, branch_calc_go cur FD n = branch_calc_go_opt cur FD n := by
  induction n with
  | zero => intro cur FD; rfl
  | succ n ih =>
    intro cur FD
    cases h : comb_rec cur FD with
    | error e => simp only [branch_calc_go, branch_calc_go_opt, h]; rfl
    | ok r => simp only [branch_calc_go, branch_calc_go_opt, h]; exact ih _ _

/-- **C9.** Each `branch_calculator` loop iteration calls `comb_rec` twice
with identical arguments, taking the particle-list output of the first call
and the operations output of the second; the operation histories finally
returned are identical to those of the optimised variant that calls
`comb_rec` exactly once per iteration and uses both components of the single
result. -/
theorem C9_double_comb_rec_call :
    ∀ particles : List Particle,
      branch_calculator particles = branch_calculator_opt particles :=
  fun _ => branch_calc_go_eq_opt _ _ _

/-- **C6.** A state-variant particle's `state` is its raw stored state when
the particle is real, and the raw state multiplied by the propagator
`i / (mom² − mass²)` when it is virtual, the mass being fixed by the type:
A ↦ 2.0, B ↦ 1.0, C ↦ 0.5.  (Rational division is total here; the Python code
would raise a `ZeroDivisionError` on `mom² = mass²`, a case no claim
touches.) -/
theorem C6_state_uses_propagator :
    (∀ p : ParticleS, p.state =
      if p.is_real then p.rawState
      else p.rawState * ⟨0, 1 / (p.mom ^ 2 - p.ptype.mass ^ 2)⟩) ∧
    PType.mass .A = 2 ∧ PType.mass .B = 1 ∧ PType.mass .C = 1 / 2 :=
  ⟨fun _ => rfl, rfl, rfl, rfl⟩

/-- **C8.** Constructing a virtual state-variant particle without an explicit
state fails with the missing-state error; supplying a state, or constructing a
real particle (which defaults to state 1), succeeds. -/
theorem C8_missing_state :
    ∀ (t : PType) (n : String) (inc : Bool) (mom : ℚ),
      ParticleS.make t n inc false mom none = .error .missingState ∧
      (∀ (real : Bool) (s : CQ),
        ParticleS.make t n inc real mom (some s) = .ok ⟨t, n, inc, real, mom, s⟩) ∧
      ParticleS.make t n inc true mom none = .ok ⟨t, n, inc, true, mom, ⟨1, 0⟩⟩ :=
  fun _ _ _ _ => ⟨rfl, fun _ _ => rfl, rfl⟩

/-- **C3 (counterexample).** The particle produced by the labelling 2-merge of
an A and a B carries `is_real = False` and `is_inc = True` — the constructor is
called as `p3_type(name, True, False)` against the signature
`(name, is_inc, is_real)` — refuting the claimed `is_real=True, is_inc=False`. -/
theorem C3_counterexample :
    (Interact_ABC_2to1_FD (extA "a") (extB "b")).map
        (fun p => (p.is_real, p.is_inc)) = .ok (false, true) ∧
    ((false, true) : Bool × Bool) ≠ (true, false) :=
  ⟨rfl, by decide⟩

/-- **C3 (amended).** Given two particles of distinct types the labelling
2-merge always succeeds and produces a particle of the unique third type,
flagged `is_inc = True` and `is_real = False` (a virtual particle), with the
composite name `"C(nameA,nameB)"`; two particles of equal type always fail
with the incompatible-interaction error. -/
theorem C3_labelling_merge :
    ∀ p1 p2 : Particle,
      (p1.ptype ≠ p2.ptype →
        ∃ p3, Interact_ABC_2to1_FD p1 p2 = .ok p3 ∧
          p3.ptype ≠ p1.ptype ∧ p3.ptype ≠ p2.ptype ∧
          p3.is_real = false ∧ p3.is_inc = true ∧
          p3.name = typeLetter p3.ptype ++ "(" ++ p1.name ++ "," ++ p2.name ++ ")") ∧
      (p1.ptype = p2.ptype →
        Interact_ABC_2to1_FD p1 p2 = .error .invalidInteraction) := by
  rintro ⟨t1, n1, i1, r1⟩ ⟨t2, n2, i2, r2⟩
  cases t1 <;> cases t2 <;>
    first
      | exact ⟨fun h => absurd rfl h, fun _ => rfl⟩
      | exact ⟨fun _ => ⟨_, rfl, fun h => PType.noConfusion h,
          fun h => PType.noConfusion h, rfl, rfl, rfl⟩,
          fun h => PType.noConfusion h⟩

/-- Witness for `C3_labelling_merge` at the concrete pair `A("a")`, `B("b")`. -/
theorem C3_labelling_merge_witness :
    ∃ p3, Interact_ABC_2to1_FD (extA "a") (extB "b") = .ok p3 ∧
      p3.ptype ≠ (extA "a").ptype ∧ p3.ptype ≠ (extB "b").ptype ∧
      p3.is_real = false ∧ p3.is_inc = true ∧
      p3.name = typeLetter p3.ptype ++ "(" ++ (extA "a").name ++ "," ++
        (extB "b").name ++ ")" :=
  (C3_labelling_merge (extA "a") (extB "b")).1 (by decide)

/-- **C5.** A numeric 2-merge produces a particle whose constructed (stored)
state is `-i·0.1·state(p1)·state(p2)` and whose momentum — hence signed
momentum, the produced particle being flagged incoming — is
`p1.signed_mom + p2.signed_mom`; merging an incoming A (state 1, mom 3) with
an incoming B (state 1, mom 4) yields the virtual C particle with stored state
`-0.1i` and signed momentum `7`. -/
theorem C5_numeric_merge :
    (∀ p1 p2 p3 : ParticleS, Interact_ABC_2to1_state p1 p2 = .ok p3 →
      p3.signed_mom = p1.signed_mom + p2.signed_mom ∧
      p3.rawState = CQ.smul LAMBDA_ABC (-CQ.I) * p1.state * p2.state) ∧
    Interact_ABC_2to1_state exA_state exB_state =
      .ok ⟨.C, "C(a,b)", true, false, 7, ⟨0, -(1 / 10)⟩⟩ ∧
    ParticleS.signed_mom ⟨.C, "C(a,b)", true, false, 7, ⟨0, -(1 / 10)⟩⟩ = 7 := by
  refine ⟨?_, ?_, by norm_num [ParticleS.signed_mom]⟩
  · intro p1 p2 p3 h
    unfold Interact_ABC_2to1_state at h
    cases hl : OUTPUT_PARTICLE_FD p1.ptype p2.ptype with
    | none => rw [hl] at h; exact absurd h (by simp)
    | some ts =>
      obtain ⟨t, s⟩ := ts
      rw [hl] at h
      have hp := Except.ok.inj h
      subst hp
      exact ⟨rfl, rfl⟩
  · simp only [Interact_ABC_2to1_state, exA_state, exB_state, OUTPUT_PARTICLE_FD,
      ParticleS.make, ParticleS.signed_mom, ParticleS.state, LAMBDA_ABC, CQ.I,
      CQ.neg_mk, CQ.smul_mk, CQ.mk_mul_mk, if_true]
    norm_num
    rfl

/-- Witness for the universal part of `C5_numeric_merge`, applied at the
concrete A/B pair of the numeric scenario. -/
theorem C5_numeric_merge_witness :
    ParticleS.signed_mom ⟨.C, "C(a,b)", true, false, 7, ⟨0, -(1 / 10)⟩⟩ =
      ParticleS.signed_mom exA_state + ParticleS.signed_mom exB_state ∧
    ParticleS.rawState ⟨.C, "C(a,b)", true, false, 7, ⟨0, -(1 / 10)⟩⟩ =
      CQ.smul LAMBDA_ABC (-CQ.I) * ParticleS.state exA_state *
        ParticleS.state exB_state :=
  C5_numeric_merge.1 exA_state exB_state _ C5_numeric_merge.2.1

/-- **C2 (code evaluated at the failing input).** On the six-particle process
`exList6` the enumeration succeeds; the first branch of the first level is
`"branch 1."` with current particle list `exLevel2List`
(`[C(a1,b1), c1, c2, b2, a2]`), and the operation its children record at the
second level selects position `0` (the freshly merged `C(a1,b1)`, as seen in
the final first branch's second operation `(0, 3)`), whereas `max_comb`
applied to that particle list — the selection rule the claim states — picks
position `3` (the B particle `b2`). -/
theorem C2_level2_selection_divergence :
    (comb_rec (.raw exList6) []).map (fun r => r.1.head?) =
      .ok (some ("branch 1.", .parts exLevel2List)) ∧
    max_comb exLevel2List = .ok 3 ∧
    (branch_calculator exList6).map (fun l => l.head?) =
      .ok (some ("branch 1.1.1.",
        [Op.pair 0 1, Op.pair 0 3, Op.pair 0 1, Op.triple 0 1 2])) ∧
    (0 : Nat) ≠ 3 :=
  ⟨by decide, by decide, by decide, by decide⟩

/-- **C4 (counterexample).** On `[A(in), A(in), B(in), C(out)]` the enumerator
selects position `2` (the B particle, with 6 pairings against 3 for each A),
not the first A at position 0, and `branch_calculator` raises an
incompatible-interaction error at the terminal level rather than returning
branches labelled `"branch 1.1."`, `"branch 1.2."`, …. -/
theorem C4_counterexample :
    branch_calculator exList4 = .error .invalidInteraction ∧
    max_comb exList4 = .ok 2 ∧ (2 : Nat) ≠ 0 :=
  ⟨by decide, by decide, by decide⟩

/-- **C4 (amended).** On `[A(in), A(in), B(in), C(out)]` the enumerator
selects the B particle (position 2, the stable argmax: B and C tie at 6
combinations and B occurs first), the first level produces exactly the labels
`"branch 1."`, `"branch 2."`, `"branch 3."` pairing B with each other-typed
particle, and the terminal level fails with the incompatible-interaction
error (each second-level list, e.g. `[C(b,a1), a2, c]`, repeats a type), so
no branch list is returned. -/
theorem C4_actual_run :
    max_comb exList4 = .ok 2 ∧
    exList4[2]? = some (extB "b") ∧
    (comb_rec (.raw exList4) []).map (fun r => r.2.map Prod.fst) =
      .ok ["branch 1.", "branch 2.", "branch 3."] ∧
    (comb_rec (.raw exList4) []).map (fun r => r.2.map Prod.snd) =
      .ok [[Op.pair 2 0], [Op.pair 2 1], [Op.pair 2 3]] ∧
    branch_calculator exList4 = .error .invalidInteraction :=
  ⟨by decide, by decide, by decide, by decide, by decide⟩

/-! ## The enumerator invariant -/

theorem mem_of_getElem?' {α : Type} {l : List α} {i : Nat} {a : α}
    (h : l[i]? = some a) : a ∈ l := by
  obtain ⟨hlt, hget⟩ := List.getElem?_eq_some.1 h
  exact hget ▸ List.getElem_mem hlt

/-- A 2-merge of differently-typed particles always succeeds. -/
theorem interact2_ok_of_ne {a b : Particle} (h : a.ptype ≠ b.ptype) :
    ∃ p, Interact_ABC_2to1_FD a b = .ok p := by
  obtain ⟨ta, na, ia, ra⟩ := a
  obtain ⟨tb, nb, ib, rb⟩ := b
  cases ta <;> cases tb <;>
    first
      | exact absurd rfl h
      | exact ⟨_, rfl⟩

/-- The first `len(inter) - 1` 2-combinations of `x :: xs` pair `x` with each
element of `xs` in order. -/
theorem combinations2_take {α : Type} (x : α) (xs : List α) :
    (combinations2 (x :: xs)).take xs.length = xs.map (fun y => (x, y)) := by
  have hl : xs.length = (xs.map (fun y => (x, y))).length := (List.length_map _ _).symm
  rw [combinations2, hl, List.take_left]

theorem labelShape_zero : LabelShape "branch " 0 :=
  ⟨[], rfl, fun m hm => absurd hm (List.not_mem_nil m), (String.append_empty _).symm⟩

theorem string_foldl_eq (l : List String) :
    ∀ s : String, l.foldl (· ++ ·) s = s ++ l.foldl (· ++ ·) "" := by
  induction l with
  | nil => intro s; exact (String.append_empty s).symm
  | cons t l ih =>
    intro s
    show l.foldl (· ++ ·) (s ++ t) = s ++ l.foldl (· ++ ·) ("" ++ t)
    rw [ih (s ++ t), ih ("" ++ t)]
    have he : ("" ++ t) = t := rfl
    rw [he, String.append_assoc]

theorem string_join_append (l1 l2 : List String) :
    String.join (l1 ++ l2) = String.join l1 ++ String.join l2 := by
  show (l1 ++ l2).foldl (· ++ ·) "" = _
  rw [List.foldl_append, string_foldl_eq l2 (l1.foldl (· ++ ·) "")]
  rfl

/-- Appending one dot-terminated child index to a shaped label. -/
theorem labelShape_snoc {lab : String} {k : Nat} (h : LabelShape lab k)
    (m : Nat) (hm : 1 ≤ m) : LabelShape (lab ++ Nat.repr m ++ ".") (k + 1) := by
  obtain ⟨ks, hlen, hall, heq⟩ := h
  refine ⟨ks ++ [m], by simp [hlen], ?_, ?_⟩
  · intro x hx
    rcases List.mem_append.1 hx with hx | hx
    · exact hall x hx
    · rw [List.mem_singleton.1 hx]; exact hm
  · rw [List.map_append, string_join_append, heq]
    have hs : String.join [Nat.repr m ++ "."] = Nat.repr m ++ "." := rfl
    rw [List.map_singleton, hs]
    simp only [String.append_assoc]

/-- A successful `max_comb` returns a position inside the list. -/
theorem max_comb_index {ps : List Particle} {i : Nat}
    (h : max_comb ps = .ok i) : i < ps.length := by
  cases hm : (ps.map
      (fun k => (combinations2 (filter_ABC k ps)).length)).max? with
  | none => simp only [max_comb, hm] at h; exact absurd h (by simp)
  | some m =>
    simp only [max_comb, hm] at h
    have hmem := List.max?_mem (fun a b => max_choice a b) hm
    have hlt := List.indexOf_lt_length.2 hmem
    rw [List.length_map] at hlt
    exact (Except.ok.inj h) ▸ hlt

/-- Invariant transport through the child-producing loop of `comb`. -/
theorem combChildren_inv (ext : List Particle) (N k : Nat)
    (l : List Particle) (gen : String) (old : List Op)
    (hch : Chain ext old l) (hlen : l.length + k = N)
    (hops : OpsShape old k) (hlab : LabelShape gen k) :
    ∀ (prs : List (Particle × Particle)) (i : Nat),
      (∀ pr ∈ prs, pr.1 ∈ l ∧ pr.2 ∈ l ∧ pr.1.ptype ≠ pr.2.ptype) →
      ∃ st' fd', combChildren l gen old prs i = .ok (st', fd') ∧
        List.Forall₂ (BranchMid ext N (k + 1)) st' fd' := by
  intro prs
  induction prs with
  | nil => exact fun i _ => ⟨[], [], rfl, List.Forall₂.nil⟩
  | cons pr rest ih =>
    intro i hall
    obtain ⟨a, b⟩ := pr
    obtain ⟨ha, hb, hne⟩ := hall (a, b) (List.mem_cons_self _ _)
    obtain ⟨p, hp⟩ := interact2_ok_of_ne hne
    obtain ⟨st', fd', hrest, hf⟩ :=
      ih (i + 1) (fun pr hpr => hall pr (List.mem_cons_of_mem _ hpr))
    have hba : b ≠ a := fun he => hne (congrArg Particle.ptype he).symm
    have hbmem : b ∈ l.erase a := (List.mem_erase_of_ne hba).2 hb
    have hstep : combChildren l gen old ((a, b) :: rest) i =
        .ok ((gen ++ Nat.repr (i + 1) ++ ".",
                .parts (p :: (l.erase a).erase b)) :: st',
             (gen ++ Nat.repr (i + 1) ++ ".",
                old ++ [Op.pair (l.indexOf a) (l.indexOf b)]) :: fd') := by
      simp only [combChildren, hp, hrest]
      rfl
    refine ⟨_, _, hstep, List.Forall₂.cons ⟨rfl, ?_, ?_, ?_⟩ hf⟩
    · exact labelShape_snoc hlab (i + 1) (Nat.succ_le_succ (Nat.zero_le i))
    · constructor
      · simp [hops.1]
      · intro op hop
        rcases List.mem_append.1 hop with hop | hop
        · exact hops.2 op hop
        · exact ⟨_, _, List.mem_singleton.1 hop⟩
    · refine ⟨p :: (l.erase a).erase b, rfl,
        Chain.step hch (List.getElem?_indexOf ha) (List.getElem?_indexOf hb) hp, ?_⟩
      have h1 : (l.erase a).length = l.length - 1 := List.length_erase_of_mem ha
      have h2 : ((l.erase a).erase b).length = (l.erase a).length - 1 :=
        List.length_erase_of_mem hbmem
      have h3 : 0 < (l.erase a).length := List.length_pos_of_mem hbmem
      simp only [List.length_cons, h2, h1]
      omega


/-- One pair-merge level of `comb` preserves the branch invariant. -/
theorem combCore_mid (ext : List Particle) (N k : Nat)
    (l : List Particle) (gen : String) (old : List Op) (index : Nat)
    (sel : Particle)
    (hch : Chain ext old l) (hlen : l.length + k = N)
    (hops : OpsShape old k) (hlab : LabelShape gen k)
    (h3 : l.length ≠ 3) (hsel : l[index]? = some sel) :
    ∃ st' fd', combCore l gen old index = .ok (st', fd') ∧
      List.Forall₂ (BranchMid ext N (k + 1)) st' fd' := by
  have hmem : sel ∈ l := mem_of_getElem?' hsel
  have hfl : ∀ pr ∈ (l.filter
      (fun q => q.ptype != sel.ptype)).map (fun y => (sel, y)),
      pr.1 ∈ l ∧ pr.2 ∈ l ∧ pr.1.ptype ≠ pr.2.ptype := by
    intro pr hpr
    obtain ⟨y, hy, rfl⟩ := List.mem_map.1 hpr
    obtain ⟨hyl, hyt⟩ := List.mem_filter.1 hy
    exact ⟨hmem, hyl, fun he => bne_iff_ne.1 hyt he.symm⟩
  obtain ⟨st', fd', heq, hf⟩ := combChildren_inv ext N k l gen old
    hch hlen hops hlab _ 0 hfl
  refine ⟨st', fd', ?_, hf⟩
  have htake : (combinations2 (filter_ABC sel l)).take
      ((filter_ABC sel l).length - 1) =
      (l.filter (fun q => q.ptype != sel.ptype)).map (fun y => (sel, y)) := by
    show (combinations2 (sel :: _)).take ((sel :: _).length - 1) = _
    rw [List.length_cons, Nat.add_sub_cancel, combinations2_take]
  simp only [combCore, if_pos h3, hsel, htake]
  exact heq

/-- The terminal level of `comb` closes the branch. -/
theorem combCore_fin (ext : List Particle) (N k : Nat)
    (l : List Particle) (gen : String) (old : List Op) (index : Nat)
    (st' : List (String × Payload)) (fd' : List (String × List Op))
    (hch : Chain ext old l) (hlen : l.length + k = N)
    (hops : OpsShape old k) (hlab : LabelShape gen k)
    (h3 : l.length = 3)
    (heq : combCore l gen old index = .ok (st', fd')) :
    fd' = [(gen, old ++ [Op.triple 0 1 2])] ∧ (∀ o ∈ fd', BranchFin ext N o) ∧
      ∃ s, st' = [(gen, Payload.matrix s)] := by
  obtain ⟨p1, p2, p3, rfl⟩ := List.length_eq_three.1 h3
  have hk : k = N - 3 := by rw [List.length_cons, List.length_cons, List.length_cons, List.length_nil] at hlen; omega
  have hne : ¬(([p1, p2, p3] : List Particle).length ≠ 3) := fun hc => hc rfl
  simp only [combCore, if_neg hne] at heq
  cases hi : Interact_ABC_3to0_FD p1 p2 p3 with
  | error e => rw [hi] at heq; exact Except.noConfusion heq
  | ok s =>
    rw [hi] at heq
    have h2 := Except.ok.inj heq
    injection h2 with ha hb
    subst ha hb
    refine ⟨rfl, ?_, ?_⟩
    · intro o ho
      rw [List.mem_singleton.1 ho]
      exact ⟨hk ▸ hlab, old, p1, p2, p3, s, rfl,
        ⟨by simpa [hk] using hops.1, hops.2⟩, hch, hi⟩
    · exact ⟨s, rfl⟩

theorem exceptBind_ok {ε α β : Type} (a : α) (f : α → Except ε β) :
    (Except.ok a : Except ε α) >>= f = f a := rfl

theorem exceptBind_error {ε α β : Type} (e : ε) (f : α → Except ε β) :
    (Except.error e : Except ε α) >>= f = Except.error e := rfl

/-- A non-terminal iteration of `comb_rec` over the branch dictionaries
preserves the invariant, advancing by one level. -/
theorem comb_rec_go_mid (ext : List Particle) (N k : Nat) (hk3 : N - k ≠ 3) :
    ∀ {st : List (String × Payload)} {fd : List (String × List Op)},
      List.Forall₂ (BranchMid ext N k) st fd →
      ∀ {st' : List (String × Payload)} {fd' : List (String × List Op)},
        comb_rec_go st fd = .ok (st', fd') →
        List.Forall₂ (BranchMid ext N (k + 1)) st' fd' := by
  intro st fd hf
  induction hf with
  | nil =>
    intro st' fd' heq
    have h2 := Except.ok.inj heq
    injection h2 with ha hb
    subst ha hb
    exact List.Forall₂.nil
  | @cons b o bs os hb hrest ih =>
    intro st' fd' heq
    obtain ⟨hlabel, hlab, hops, l, hpl, hch, hlen⟩ := hb
    have hcd : comb_dict b o = combCore l b.1 o.2 0 := by
      simp only [comb_dict, hpl, max_comb_dict]
    cases l with
    | nil =>
      have hzero : comb_dict b o = .error .valueError := by rw [hcd]; rfl
      simp only [comb_rec_go, hzero, exceptBind_error] at heq
      exact Except.noConfusion heq
    | cons sel ls =>
      have hsel : (sel :: ls)[0]? = some sel := by simp
      have h3 : (sel :: ls).length ≠ 3 := by
        have hl : (sel :: ls).length = N - k := by omega
        rw [hl]; exact hk3
      obtain ⟨stc, fdc, hc, hfc⟩ := combCore_mid ext N k (sel :: ls) b.1 o.2 0
        sel hch hlen hops hlab h3 hsel
      have hcd2 : comb_dict b o = .ok (stc, fdc) := hcd.trans hc
      simp only [comb_rec_go, hcd2, exceptBind_ok] at heq
      have hle : fdc.length ≤ stc.length := le_of_eq hfc.length_eq.symm
      rw [if_pos hle] at heq
      cases hr : comb_rec_go bs os with
      | error e => rw [hr, exceptBind_error] at heq; exact Except.noConfusion heq
      | ok rr =>
        rw [hr, exceptBind_ok] at heq
        have h2 := Except.ok.inj heq
        injection h2 with ha hb2
        subst ha hb2
        have htake : stc.take fdc.length = stc := by
          rw [← hfc.length_eq]; exact List.take_length stc
        rw [htake]
        exact List.rel_append hfc (ih hr)

/-- The terminal iteration of `comb_rec` closes every surviving branch. -/
theorem comb_rec_go_fin (ext : List Particle) (N k : Nat) (hk3 : N - k = 3)
    (hkN : k ≤ N) :
    ∀ {st : List (String × Payload)} {fd : List (String × List Op)},
      List.Forall₂ (BranchMid ext N k) st fd →
      ∀ {st' : List (String × Payload)} {fd' : List (String × List Op)},
        comb_rec_go st fd = .ok (st', fd') →
        ∀ o ∈ fd', BranchFin ext N o := by
  intro st fd hf
  induction hf with
  | nil =>
    intro st' fd' heq
    have h2 := Except.ok.inj heq
    injection h2 with ha hb
    subst ha hb
    intro o ho
    exact absurd ho (List.not_mem_nil o)
  | @cons b o bs os hb hrest ih =>
    intro st' fd' heq
    obtain ⟨hlabel, hlab, hops, l, hpl, hch, hlen⟩ := hb
    have hcd : comb_dict b o = combCore l b.1 o.2 0 := by
      simp only [comb_dict, hpl, max_comb_dict]
    have h3 : l.length = 3 := by omega
    cases hc : combCore l b.1 o.2 0 with
    | error e =>
      have hcd2 : comb_dict b o = .error e := hcd.trans hc
      simp only [comb_rec_go, hcd2, exceptBind_error] at heq
      exact Except.noConfusion heq
    | ok rc =>
      obtain ⟨stc, fdc⟩ := rc
      obtain ⟨hfd, hBF, s, hstc⟩ := combCore_fin ext N k l b.1 o.2 0 stc fdc
        hch hlen hops hlab h3 hc
      have hcd2 : comb_dict b o = .ok (stc, fdc) := hcd.trans hc
      simp only [comb_rec_go, hcd2, exceptBind_ok] at heq
      have hle : fdc.length ≤ stc.length := by rw [hfd, hstc]; exact Nat.le.refl
      rw [if_pos hle] at heq
      cases hr : comb_rec_go bs os with
      | error e => rw [hr, exceptBind_error] at heq; exact Except.noConfusion heq
      | ok rr =>
        rw [hr, exceptBind_ok] at heq
        have h2 := Except.ok.inj heq
        injection h2 with ha hb2
        subst ha hb2
        intro o' ho'
        rcases List.mem_append.1 ho' with ho' | ho'
        · exact hBF o' ho'
        · exact ih hr o' ho'

/-- With a nonempty operation list, `comb_rec` on branch dictionaries is its
per-branch loop; with an empty one the state is empty and it fails. -/
theorem comb_rec_branches (ext : List Particle) (N k : Nat)
    {st : List (String × Payload)} {fd : List (String × List Op)}
    {r : List (String × Payload) × List (String × List Op)}
    (hf : List.Forall₂ (BranchMid ext N k) st fd)
    (heq : comb_rec (.branches st) fd = .ok r) :
    comb_rec_go st fd = .ok r := by
  by_cases hfd : fd = []
  · subst hfd
    have hst : st = [] := List.forall₂_nil_right_iff.1 hf
    subst hst
    exact absurd heq (by simp [comb_rec])
  · unfold comb_rec at heq
    rw [if_neg hfd] at heq
    exact heq

/-- The loop of `branch_calculator` carries the invariant from any
intermediate level to the closed branches it returns. -/
theorem branch_calc_go_fin (ext : List Particle) (N : Nat) (hN : 3 ≤ N) :
    ∀ (n k : Nat) (st : List (String × Payload)) (fd : List (String × List Op))
      (res : List (String × List Op)),
      k + n = N - 2 → 1 ≤ n → 1 ≤ k →
      List.Forall₂ (BranchMid ext N k) st fd →
      branch_calc_go (.branches st) fd n = .ok res →
      ∀ o ∈ res, BranchFin ext N o := by
  intro n
  induction n with
  | zero => intro k st fd res hkn h1 _ _ _; exact absurd h1 (by omega)
  | succ n ih =>
    intro k st fd res hkn _ hk1 hf heq
    cases hcr : comb_rec (.branches st) fd with
    | error e =>
      simp only [branch_calc_go, hcr, exceptBind_error] at heq
      exact Except.noConfusion heq
    | ok r =>
      obtain ⟨st1, fd1⟩ := r
      have hgo := comb_rec_branches ext N k hf hcr
      simp only [branch_calc_go, hcr, exceptBind_ok] at heq
      cases n with
      | zero =>
        have hk : N - k = 3 := by omega
        have hfin := comb_rec_go_fin ext N k hk (by omega) hf hgo
        have hres : fd1 = res := Except.ok.inj heq
        exact hres ▸ hfin
      | succ m =>
        have hk3 : N - k ≠ 3 := by omega
        have hmid := comb_rec_go_mid ext N k hk3 hf hgo
        exact ih (k + 1) st1 fd1 res (by omega) (by omega) (by omega) hmid heq

/-- Every operation branch returned by a successful `branch_calculator` run
on at least three particles is a closed branch of the enumeration. -/
theorem branch_calculator_fin (ps : List Particle)
    (fd : List (String × List Op))
    (hN : 3 ≤ ps.length)
    (heq : branch_calculator ps = .ok fd) :
    ∀ o ∈ fd, BranchFin ps ps.length o := by
  unfold branch_calculator at heq
  have hn : ps.length - 2 = (ps.length - 3) + 1 := by omega
  rw [hn] at heq
  cases hcl : comb_list ps with
  | error e =>
    have hcr : comb_rec (.raw ps) [] = .error e := by
      simp [comb_rec, hcl, exceptBind_error]
    simp only [branch_calc_go, hcr, exceptBind_error] at heq
    exact Except.noConfusion heq
  | ok r =>
    obtain ⟨st1, fd1⟩ := r
    have hcr : comb_rec (.raw ps) [] = .ok (st1, fd1) := by
      simp [comb_rec, hcl, exceptBind_ok]
    simp only [branch_calc_go, hcr, exceptBind_ok] at heq
    cases hmx : max_comb ps with
    | error e =>
      rw [comb_list, hmx, exceptBind_error] at hcl
      exact Except.noConfusion hcl
    | ok index =>
      have hidx : index < ps.length := max_comb_index hmx
      have hsel : ps[index]? = some ps[index] := List.getElem?_eq_getElem hidx
      have hcc : combCore ps "branch " [] index = .ok (st1, fd1) := by
        rw [comb_list, hmx, exceptBind_ok] at hcl
        exact hcl
      have hops0 : OpsShape ([] : List Op) 0 :=
        ⟨rfl, fun op hop => absurd hop (List.not_mem_nil op)⟩
      by_cases h3 : ps.length = 3
      · obtain ⟨hfd1, hBF, s, hst1⟩ := combCore_fin ps ps.length 0 ps "branch " []
          index st1 fd1 Chain.nil (Nat.add_zero _) hops0 labelShape_zero h3 hcc
        have hz : ps.length - 3 = 0 := by omega
        rw [hz] at heq
        have hres : fd1 = fd := Except.ok.inj heq
        exact hres ▸ hBF
      · obtain ⟨stc, fdc, hc, hfc⟩ := combCore_mid ps ps.length 0 ps "branch " []
          index (ps[index]) Chain.nil (Nat.add_zero _) hops0 labelShape_zero h3 hsel
        have hb := hc.symm.trans hcc
        have hb2 := Except.ok.inj hb
        injection hb2 with hb3 hb4
        subst hb3 hb4
        exact branch_calc_go_fin ps ps.length hN (ps.length - 3) 1 stc fdc fd
          (by omega) (by omega) (by omega) hfc heq

/-- **C1.** For every external particle list of `N ≥ 3` particles on which the
enumeration succeeds, every returned branch has an operation list of exactly
`N−2` entries: the first `N−3` are index pairs recording two-particle merges
and the last is the index triple `(0,1,2)` recording the terminal
three-particle merge. -/
theorem C1_branch_shape :
    ∀ (ps : List Particle) (fd : List (String × List Op)),
      3 ≤ ps.length → branch_calculator ps = .ok fd →
      ∀ b ∈ fd, b.2.length = ps.length - 2 ∧
        ∃ ops0, b.2 = ops0 ++ [Op.triple 0 1 2] ∧
          ops0.length = ps.length - 3 ∧
          ∀ op ∈ ops0, ∃ i j, op = Op.pair i j := by
  intro ps fd hN heq b hb
  obtain ⟨hlab, ops0, p1, p2, p3, s, hops, hshape, hch, hi⟩ :=
    branch_calculator_fin ps fd hN heq b hb
  refine ⟨?_, ops0, hops, hshape.1, hshape.2⟩
  rw [hops, List.length_append, hshape.1]
  simp only [List.length_singleton]
  omega

/-- Witness for `C1_branch_shape`: the three-particle process `[A, B, C]`
yields the single branch `("branch ", [(0,1,2)])`. -/
theorem C1_branch_shape_witness :
    ("branch ", [Op.triple 0 1 2]).2.length = exList3.length - 2 ∧
    ∃ ops0, ("branch ", [Op.triple 0 1 2]).2 = ops0 ++ [Op.triple 0 1 2] ∧
      ops0.length = exList3.length - 3 ∧
      ∀ op ∈ ops0, ∃ i j, op = Op.pair i j :=
  C1_branch_shape exList3 [("branch ", [Op.triple 0 1 2])] (by decide)
    (by decide) ("branch ", [Op.triple 0 1 2]) (List.mem_singleton.2 rfl)

/-- **C10.** For every `N ≥ 3` input on which the enumeration succeeds, every
returned branch label is the prefix `"branch "` followed by exactly `N−3`
dot-terminated decimal child indices (each at least 1), one appended per
two-particle merge level — the terminal step reuses the parent label — so for
`N = 3` the single branch's label is exactly `"branch "`. -/
theorem C10_label_shape :
    ∀ (ps : List Particle) (fd : List (String × List Op)),
      3 ≤ ps.length → branch_calculator ps = .ok fd →
      ∀ b ∈ fd, ∃ ks : List Nat, ks.length = ps.length - 3 ∧
        (∀ m ∈ ks, 1 ≤ m) ∧
        b.1 = "branch " ++ String.join (ks.map (fun m => Nat.repr m ++ ".")) :=
  fun ps fd hN heq b hb => (branch_calculator_fin ps fd hN heq b hb).1

/-- Witness for `C10_label_shape`: on `[A, B, C]` (`N = 3`) the single branch
carries zero child indices, its label being exactly `"branch "`. -/
theorem C10_label_shape_witness :
    ∃ ks : List Nat, ks.length = exList3.length - 3 ∧
      (∀ m ∈ ks, 1 ≤ m) ∧
      ("branch ", [Op.triple 0 1 2]).1 =
        "branch " ++ String.join (ks.map (fun m => Nat.repr m ++ ".")) :=
  C10_label_shape exList3 [("branch ", [Op.triple 0 1 2])] (by decide)
    (by decide) ("branch ", [Op.triple 0 1 2]) (List.mem_singleton.2 rfl)

theorem mem_suppOf {A : Finset Char} {c : Char} {s : String} :
    c ∈ suppOf A s ↔ c ∈ A ∧ 0 < ccount c s := by
  unfold suppOf
  simp [Finset.mem_filter]

theorem suppOf_union {A : Finset Char} {pn an bn : String}
    (hsum : ∀ c ∈ A, ccount c pn = ccount c an + ccount c bn) :
    suppOf A pn = suppOf A an ∪ suppOf A bn := by
  apply Finset.ext
  intro c
  simp only [mem_suppOf, Finset.mem_union]
  constructor
  · rintro ⟨hcA, hpos⟩
    rw [hsum c hcA] at hpos
    rcases Nat.lt_or_ge 0 (ccount c an) with h | h
    · exact Or.inl ⟨hcA, h⟩
    · exact Or.inr ⟨hcA, by omega⟩
  · rintro (⟨hcA, hpos⟩ | ⟨hcA, hpos⟩) <;>
      exact ⟨hcA, by rw [hsum c hcA]; omega⟩

theorem Graph.edges_addNode (g : Graph) (n : String) :
    (g.addNode n).edges = g.edges := by
  unfold Graph.addNode
  split <;> rfl

theorem Graph.mem_addNode {g : Graph} {n m : String} :
    m ∈ (g.addNode n).nodes ↔ m ∈ g.nodes ∨ m = n := by
  unfold Graph.addNode
  split
  · constructor
    · exact Or.inl
    · rintro (hm | rfl)
      · exact hm
      · assumption
  · simp [List.mem_append]

theorem Graph.nodup_addNode {g : Graph} (n : String) (h : g.nodes.Nodup) :
    (g.addNode n).nodes.Nodup := by
  unfold Graph.addNode
  split
  · exact h
  · next hn =>
      simp only
      exact List.Nodup.append h (List.nodup_singleton n)
        (by simp [List.disjoint_right]; exact fun hc => hn hc)

theorem Graph.edges_addNodes (g : Graph) (ns : List String) :
    (g.addNodes ns).edges = g.edges := by
  induction ns generalizing g with
  | nil => rfl
  | cons n ns ih => rw [Graph.addNodes, List.foldl_cons, ← Graph.addNodes, ih,
      Graph.edges_addNode]

theorem Graph.mem_addNodes {g : Graph} {ns : List String} {m : String} :
    m ∈ (g.addNodes ns).nodes ↔ m ∈ g.nodes ∨ m ∈ ns := by
  induction ns generalizing g with
  | nil => simp [Graph.addNodes]
  | cons n ns ih =>
    rw [Graph.addNodes, List.foldl_cons, ← Graph.addNodes]
    rw [ih, Graph.mem_addNode]
    simp [List.mem_cons]
    tauto

theorem Graph.nodup_addNodes {g : Graph} (ns : List String)
    (h : g.nodes.Nodup) : (g.addNodes ns).nodes.Nodup := by
  induction ns generalizing g with
  | nil => exact h
  | cons n ns ih =>
    rw [Graph.addNodes, List.foldl_cons, ← Graph.addNodes]
    exact ih (Graph.nodup_addNode n h)

theorem Graph.hasEdge_addNode (g : Graph) (n : String) (u v : String) :
    (g.addNode n).hasEdge u v = g.hasEdge u v := by
  unfold Graph.hasEdge
  rw [Graph.edges_addNode]

theorem Graph.mem_addEdge {g : Graph} {u v m : String} :
    m ∈ (g.addEdge u v).nodes ↔ m ∈ g.nodes ∨ m = u ∨ m = v := by
  simp only [Graph.addEdge]
  split <;> simp only [Graph.mem_addNode] <;> tauto

theorem Graph.nodup_addEdge {g : Graph} (u v : String) (h : g.nodes.Nodup) :
    (g.addEdge u v).nodes.Nodup := by
  simp only [Graph.addEdge]
  split
  · exact Graph.nodup_addNode v (Graph.nodup_addNode u h)
  · exact Graph.nodup_addNode v (Graph.nodup_addNode u h)

theorem Graph.edges_addEdge_of_fresh {g : Graph} {u v : String}
    (h1 : (u, v) ∉ g.edges) (h2 : (v, u) ∉ g.edges) :
    (g.addEdge u v).edges = g.edges ++ [(u, v)] := by
  simp only [Graph.addEdge]
  have hhe : ((g.addNode u).addNode v).hasEdge u v = false := by
    rw [Graph.hasEdge_addNode, Graph.hasEdge_addNode]
    unfold Graph.hasEdge
    simp [h1, h2]
  rw [hhe]
  simp only [Bool.false_eq_true, if_false]
  rw [Graph.edges_addNode, Graph.edges_addNode]

theorem Graph.edges_addEdge_sub {g : Graph} {u v : String} {e : String × String}
    (he : e ∈ (g.addEdge u v).edges) : e ∈ g.edges ∨ e = (u, v) := by
  simp only [Graph.addEdge] at he
  split at he
  · rw [Graph.edges_addNode, Graph.edges_addNode] at he; exact Or.inl he
  · simp only [Graph.edges_addNode] at he
    rcases List.mem_append.1 he with he | he
    · exact Or.inl he
    · exact Or.inr (List.mem_singleton.1 he)

/-- The name-hygiene invariant is preserved by one merge, and the merged
particle's name is fresh. -/
theorem nameHyg_step {A : Finset Char} {H l : List Particle}
    (inv : NameHyg A H l)
    {a b p : Particle} (ha : a ∈ l) (hb : b ∈ l) (hab : a ≠ b)
    (hsum : ∀ c ∈ A, ccount c p.name = ccount c a.name + ccount c b.name)
    (hplus : ccount '+' p.name = 0) :
    NameHyg A (H ++ [p]) (p :: (l.erase a).erase b) ∧
      (∀ h ∈ H, p.name ≠ h.name) := by
  have haH := inv.aliveSub a ha
  have hbH := inv.aliveSub b hb
  have hdisj : ∀ x ∈ l, ∀ y ∈ l, x ≠ y →
      suppOf A x.name ∩ suppOf A y.name = ∅ := by
    intro x hx y hy hxy
    exact List.Pairwise.forall
      (fun u v h => by rw [Finset.inter_comm]; exact h)
      inv.aliveDisjoint hx hy hxy
  have hdab : suppOf A a.name ∩ suppOf A b.name = ∅ := hdisj a ha b hb hab
  have hsup : suppOf A p.name = suppOf A a.name ∪ suppOf A b.name :=
    suppOf_union hsum
  have hfresh : ∀ h ∈ H, suppOf A h.name ≠ suppOf A p.name := by
    intro h hH heq
    rcases inv.nest h hH a ha with rfl | hdA | hsA
    · obtain ⟨c, hc⟩ := (inv.clean b hbH).1
      have hcp : c ∈ suppOf A p.name := by
        rw [hsup]; exact Finset.mem_union_right _ hc
      rw [← heq] at hcp
      have hmem : c ∈ suppOf A h.name ∩ suppOf A b.name :=
        Finset.mem_inter.2 ⟨hcp, hc⟩
      rw [hdab] at hmem
      exact absurd hmem (Finset.not_mem_empty c)
    · rcases inv.nest h hH b hb with rfl | hdB | hsB
      · obtain ⟨c, hc⟩ := (inv.clean a haH).1
        have hcp : c ∈ suppOf A p.name := by
          rw [hsup]; exact Finset.mem_union_left _ hc
        rw [← heq] at hcp
        have hmem : c ∈ suppOf A a.name ∩ suppOf A h.name :=
          Finset.mem_inter.2 ⟨hc, hcp⟩
        rw [hdab] at hmem
        exact absurd hmem (Finset.not_mem_empty c)
      · obtain ⟨c, hc⟩ := (inv.clean h hH).1
        have hcp : c ∈ suppOf A p.name := heq ▸ hc
        rw [hsup] at hcp
        rcases Finset.mem_union.1 hcp with hca | hcb
        · have hmem : c ∈ suppOf A h.name ∩ suppOf A a.name :=
            Finset.mem_inter.2 ⟨hc, hca⟩
          rw [hdA] at hmem
          exact absurd hmem (Finset.not_mem_empty c)
        · have hmem : c ∈ suppOf A h.name ∩ suppOf A b.name :=
            Finset.mem_inter.2 ⟨hc, hcb⟩
          rw [hdB] at hmem
          exact absurd hmem (Finset.not_mem_empty c)
      · obtain ⟨c, hc⟩ := (inv.clean a haH).1
        have hcp : c ∈ suppOf A p.name := by
          rw [hsup]; exact Finset.mem_union_left _ hc
        have hch : c ∈ suppOf A h.name := heq.symm ▸ hcp
        have hcb : c ∈ suppOf A b.name := hsB.subset hch
        have hmem : c ∈ suppOf A a.name ∩ suppOf A b.name :=
          Finset.mem_inter.2 ⟨hc, hcb⟩
        rw [hdab] at hmem
        exact absurd hmem (Finset.not_mem_empty c)
    · obtain ⟨c, hc⟩ := (inv.clean b hbH).1
      have hcp : c ∈ suppOf A p.name := by
        rw [hsup]; exact Finset.mem_union_right _ hc
      have hch : c ∈ suppOf A h.name := heq.symm ▸ hcp
      have hca : c ∈ suppOf A a.name := hsA.subset hch
      have hmem : c ∈ suppOf A a.name ∩ suppOf A b.name :=
        Finset.mem_inter.2 ⟨hca, hc⟩
      rw [hdab] at hmem
      exact absurd hmem (Finset.not_mem_empty c)
  have hname : ∀ h ∈ H, p.name ≠ h.name := by
    intro h hH he
    exact hfresh h hH (by rw [he])
  have hlnodup : l.Nodup := by
    refine List.Pairwise.imp_of_mem ?_ inv.aliveDisjoint
    intro x y hx hy hd
    intro hxy
    subst hxy
    obtain ⟨c, hc⟩ := (inv.clean x (inv.aliveSub x hx)).1
    have hmem : c ∈ suppOf A x.name ∩ suppOf A x.name := Finset.mem_inter.2 ⟨hc, hc⟩
    rw [hd] at hmem
    exact absurd hmem (Finset.not_mem_empty c)
  have htail : ∀ x ∈ (l.erase a).erase b, x ∈ l ∧ x ≠ a ∧ x ≠ b := by
    intro x hx
    have hx1 : x ∈ l.erase a := List.mem_of_mem_erase hx
    have hx2 : x ∈ l := List.mem_of_mem_erase hx1
    refine ⟨hx2, ?_, ?_⟩
    · exact ((List.Nodup.mem_erase_iff hlnodup).1 hx1).1
    · exact ((List.Nodup.mem_erase_iff (List.Nodup.erase a hlnodup)).1 hx).1
  have hpx : ∀ x ∈ (l.erase a).erase b,
      suppOf A p.name ∩ suppOf A x.name = ∅ := by
    intro x hx
    obtain ⟨hx2, hxa, hxb⟩ := htail x hx
    rw [hsup, Finset.union_inter_distrib_right,
      hdisj a ha x hx2 (fun he => hxa (he.symm)),
      hdisj b hb x hx2 (fun he => hxb (he.symm)), Finset.union_empty]
  refine ⟨⟨?_, ?_, ?_, ?_, ?_⟩, hname⟩
  · -- clean
    intro q hq
    rcases List.mem_append.1 hq with hq | hq
    · exact inv.clean q hq
    · rw [List.mem_singleton.1 hq]
      refine ⟨?_, ?_, hplus⟩
      · obtain ⟨c, hc⟩ := (inv.clean a haH).1
        exact ⟨c, by rw [hsup]; exact Finset.mem_union_left _ hc⟩
      · intro c hcA
        have hca := ((inv.clean a haH).2.1) c hcA
        have hcb := ((inv.clean b hbH).2.1) c hcA
        rw [hsum c hcA]
        by_cases hpa : 0 < ccount c a.name
        · by_cases hpb : 0 < ccount c b.name
          · have hmem : c ∈ suppOf A a.name ∩ suppOf A b.name :=
              Finset.mem_inter.2 ⟨mem_suppOf.2 ⟨hcA, hpa⟩, mem_suppOf.2 ⟨hcA, hpb⟩⟩
            rw [hdab] at hmem
            exact absurd hmem (Finset.not_mem_empty c)
          · omega
        · omega
  · -- distinctSupp
    rw [List.pairwise_append]
    refine ⟨inv.distinctSupp, List.pairwise_singleton _ _, ?_⟩
    intro h hH q hq
    rw [List.mem_singleton.1 hq]
    exact hfresh h hH
  · -- aliveDisjoint
    rw [List.pairwise_cons]
    refine ⟨hpx, ?_⟩
    exact List.Pairwise.sublist
      ((List.erase_sublist b (l.erase a)).trans (List.erase_sublist a l))
      inv.aliveDisjoint
  · -- aliveSub
    intro x hx
    rcases List.mem_cons.1 hx with rfl | hx
    · exact List.mem_append.2 (Or.inr (List.mem_singleton.2 rfl))
    · exact List.mem_append.2 (Or.inl (inv.aliveSub x (htail x hx).1))
  · -- nest
    intro h hH x hx
    rcases List.mem_cons.1 hx with rfl | hx
    · -- x = p
      rcases List.mem_append.1 hH with hH | hH
      · -- h ∈ H, x = p
        rcases inv.nest h hH a ha with rfl | hdA | hsA
        · -- h = a : supp a ⊂ supp p
          refine Or.inr (Or.inr ?_)
          rw [hsup]
          refine (Finset.ssubset_iff_of_subset Finset.subset_union_left).2 ?_
          obtain ⟨c, hc⟩ := (inv.clean b hbH).1
          refine ⟨c, Finset.mem_union_right _ hc, fun hca => ?_⟩
          have hmem : c ∈ suppOf A h.name ∩ suppOf A b.name :=
            Finset.mem_inter.2 ⟨hca, hc⟩
          rw [hdab] at hmem
          exact absurd hmem (Finset.not_mem_empty c)
        · rcases inv.nest h hH b hb with rfl | hdB | hsB
          · -- h = b : supp b ⊂ supp p
            refine Or.inr (Or.inr ?_)
            rw [hsup]
            refine (Finset.ssubset_iff_of_subset Finset.subset_union_right).2 ?_
            obtain ⟨c, hc⟩ := (inv.clean a haH).1
            refine ⟨c, Finset.mem_union_left _ hc, fun hcb => ?_⟩
            have hmem : c ∈ suppOf A a.name ∩ suppOf A h.name :=
              Finset.mem_inter.2 ⟨hc, hcb⟩
            rw [hdab] at hmem
            exact absurd hmem (Finset.not_mem_empty c)
          · -- disjoint from both
            refine Or.inr (Or.inl ?_)
            rw [hsup, Finset.inter_union_distrib_left _ _ _, hdA, hdB, Finset.union_empty]
          · -- h ⊂ b ⊆ p
            refine Or.inr (Or.inr (hsB.trans_subset ?_))
            rw [hsup]
            exact Finset.subset_union_right
        · -- h ⊂ a ⊆ p
          refine Or.inr (Or.inr (hsA.trans_subset ?_))
          rw [hsup]
          exact Finset.subset_union_left
      · -- h = p
        rw [List.mem_singleton.1 hH]
        exact Or.inl rfl
    · -- x ∈ tail
      rcases List.mem_append.1 hH with hH | hH
      · exact inv.nest h hH x (htail x hx).1
      · rw [List.mem_singleton.1 hH]
        exact Or.inr (Or.inl (hpx x hx))

/-- Appending one operation to a replay. -/
theorem replayG_append (ops : List Op) :
    ∀ (st : FDState) (op : Op),
      replayG st (ops ++ [op]) =
        (replayG st ops).bind (fun st' => do_next_operation st' op) := by
  induction ops with
  | nil =>
    intro st op
    show (do_next_operation st op).bind (fun st' => replayG st' []) =
      do_next_operation st op
    cases do_next_operation st op <;> rfl
  | cons o os ih =>
    intro st op
    show (do_next_operation st o).bind (fun st' => replayG st' (os ++ [op])) =
      ((do_next_operation st o).bind fun st' => replayG st' os).bind
        (fun st' => do_next_operation st' op)
    cases h : do_next_operation st o with
    | error e => rfl
    | ok st' => exact ih st' op

/-- Support of a single-character name. -/
theorem suppOf_single {A : Finset Char} {c : Char} (hc : c ∈ A) :
    suppOf A (String.mk [c]) = {c} := by
  apply Finset.ext
  intro x
  simp only [mem_suppOf, Finset.mem_singleton]
  constructor
  · rintro ⟨hxA, hpos⟩
    by_contra hne
    have hz : ccount x (String.mk [c]) = 0 := by
      unfold ccount
      exact List.count_eq_zero.2 (by simp [hne])
    rw [hz] at hpos
    exact Nat.lt_irrefl 0 hpos
  · rintro rfl
    refine ⟨hc, ?_⟩
    unfold ccount
    simp

/-- A hygienic external list has a clean atom alphabet and satisfies the
name-hygiene invariant over itself. -/
theorem cleanAtoms_base (ext : List Particle) (hc : CleanAtoms ext) :
    (∀ c ∈ atomSet ext, c ∉ reservedChars) ∧
      NameHyg (atomSet ext) ext ext := by
  obtain ⟨hnames, hnodup⟩ := hc
  have hchar : ∀ p ∈ ext, ∃ c, p.name = String.mk [c] ∧ c ∉ reservedChars ∧
      c ∈ atomSet ext := by
    intro p hp
    obtain ⟨c, hn, hres⟩ := hnames p hp
    refine ⟨c, hn, hres, ?_⟩
    unfold atomSet
    rw [List.mem_toFinset, List.mem_flatMap]
    exact ⟨p, hp, by rw [hn]; exact List.mem_singleton.2 rfl⟩
  have hA : ∀ c ∈ atomSet ext, c ∉ reservedChars := by
    intro c hcA
    unfold atomSet at hcA
    rw [List.mem_toFinset, List.mem_flatMap] at hcA
    obtain ⟨p, hp, hcp⟩ := hcA
    obtain ⟨c', hn, hres⟩ := hnames p hp
    rw [hn] at hcp
    rw [List.mem_singleton.1 hcp]
    exact hres
  have hsupp : ∀ p ∈ ext, ∃ c, p.name = String.mk [c] ∧
      suppOf (atomSet ext) p.name = {c} := by
    intro p hp
    obtain ⟨c, hn, _, hcA⟩ := hchar p hp
    exact ⟨c, hn, by rw [hn]; exact suppOf_single hcA⟩
  have hinj : ∀ p ∈ ext, ∀ q ∈ ext, p.name = q.name → p = q := by
    intro p hp q hq he
    exact List.inj_on_of_nodup_map hnodup hp hq he
  have hdistinct : ∀ p ∈ ext, ∀ q ∈ ext, p ≠ q →
      suppOf (atomSet ext) p.name ∩ suppOf (atomSet ext) q.name = ∅ := by
    intro p hp q hq hpq
    obtain ⟨cp, hnp, hsp⟩ := hsupp p hp
    obtain ⟨cq, hnq, hsq⟩ := hsupp q hq
    have hcc : cp ≠ cq := by
      intro he
      exact hpq (hinj p hp q hq (by rw [hnp, hnq, he]))
    rw [hsp, hsq]
    apply Finset.eq_empty_iff_forall_not_mem.2
    intro x hx
    rw [Finset.mem_inter, Finset.mem_singleton, Finset.mem_singleton] at hx
    exact hcc (hx.1 ▸ hx.2 ▸ rfl)
  refine ⟨hA, ⟨?_, ?_, ?_, fun a h => h, ?_⟩⟩
  · intro p hp
    obtain ⟨c, hn, hres, hcA⟩ := hchar p hp
    refine ⟨?_, ?_, ?_⟩
    · obtain ⟨c', hn', hs⟩ := hsupp p hp
      rw [hs]
      exact ⟨c', Finset.mem_singleton_self c'⟩
    · intro x hxA
      rw [hn]
      unfold ccount
      calc List.count x (String.mk [c]).data ≤ (String.mk [c]).data.length :=
            List.count_le_length x _
        _ = 1 := rfl
    · rw [hn]
      unfold ccount
      apply List.count_eq_zero.2
      intro hmem
      have hm := List.mem_singleton.1 hmem
      exact hres (hm ▸ (by decide : '+' ∈ reservedChars))
  · have hpn : ext.Pairwise (fun p q => p.name ≠ q.name) :=
      List.pairwise_map.1 hnodup
    refine List.Pairwise.imp_of_mem ?_ hpn
    intro p q hp hq hne heq
    have hpq : p ≠ q := fun he => hne (congrArg Particle.name he)
    have hd := hdistinct p hp q hq hpq
    rw [heq, Finset.inter_self] at hd
    obtain ⟨c', hn', hs⟩ := hsupp q hq
    rw [hs] at hd
    exact absurd (hd ▸ Finset.mem_singleton_self c') (Finset.not_mem_empty c')
  · have hpn : ext.Pairwise (fun p q => p.name ≠ q.name) :=
      List.pairwise_map.1 hnodup
    refine List.Pairwise.imp_of_mem ?_ hpn
    intro p q hp hq hne
    exact hdistinct p hp q hq (fun he => hne (congrArg Particle.name he))
  · intro h hH a ha
    by_cases he : h = a
    · exact Or.inl he
    · exact Or.inr (Or.inl (hdistinct h hH a ha he))

set_option maxHeartbeats 1000000 in
/-- Graph bookkeeping of one pair merge: given a fresh result name and
distinct present operand names, the nodes gain the three names and the edges
grow by exactly the two new edges. -/
theorem pairStep_graph {gr : Graph} {names : List String} {an bn pn : String}
    (hnn : gr.nodes.Nodup)
    (hee : ∀ e ∈ gr.edges, e.1 ∈ names ∧ e.2 ∈ names)
    (hp : pn ∉ names) (han : an ∈ names) (hbn : bn ∈ names) (hanbn : an ≠ bn) :
    (((((gr.addNode an).addNode bn).addNode pn).addEdge pn an).addEdge pn bn).nodes.Nodup ∧
    (∀ n, n ∈ (((((gr.addNode an).addNode bn).addNode pn).addEdge pn an).addEdge pn bn).nodes ↔
      n ∈ gr.nodes ∨ n = an ∨ n = bn ∨ n = pn) ∧
    (((((gr.addNode an).addNode bn).addNode pn).addEdge pn an).addEdge pn bn).edges =
      gr.edges ++ [(pn, an), (pn, bn)] := by
  have hpa : pn ≠ an := fun he => hp (he ▸ han)
  have hpb : pn ≠ bn := fun he => hp (he ▸ hbn)
  have hg2e : (((gr.addNode an).addNode bn).addNode pn).edges = gr.edges := by
    rw [Graph.edges_addNode, Graph.edges_addNode, Graph.edges_addNode]
  have h1 : (pn, an) ∉ (((gr.addNode an).addNode bn).addNode pn).edges := by
    rw [hg2e]
    intro hmem
    exact hp (hee _ hmem).1
  have h2 : (an, pn) ∉ (((gr.addNode an).addNode bn).addNode pn).edges := by
    rw [hg2e]
    intro hmem
    exact hp (hee _ hmem).2
  have hg3e : ((((gr.addNode an).addNode bn).addNode pn).addEdge pn an).edges =
      gr.edges ++ [(pn, an)] := by
    rw [Graph.edges_addEdge_of_fresh h1 h2, hg2e]
  have h3 : (pn, bn) ∉ ((((gr.addNode an).addNode bn).addNode pn).addEdge pn an).edges := by
    rw [hg3e]
    intro hmem
    rcases List.mem_append.1 hmem with hmem | hmem
    · exact hp (hee _ hmem).1
    · have he := List.mem_singleton.1 hmem
      have hbe : bn = an := congrArg Prod.snd he
      exact hanbn hbe.symm
  have h4 : (bn, pn) ∉ ((((gr.addNode an).addNode bn).addNode pn).addEdge pn an).edges := by
    rw [hg3e]
    intro hmem
    rcases List.mem_append.1 hmem with hmem | hmem
    · exact hp (hee _ hmem).2
    · have he := List.mem_singleton.1 hmem
      exact hpb (congrArg Prod.fst he).symm
  refine ⟨?_, ?_, ?_⟩
  · exact Graph.nodup_addEdge _ _ (Graph.nodup_addEdge _ _
      (Graph.nodup_addNode _ (Graph.nodup_addNode _ (Graph.nodup_addNode _ hnn))))
  · intro n
    rw [Graph.mem_addEdge, Graph.mem_addEdge, Graph.mem_addNode,
      Graph.mem_addNode, Graph.mem_addNode]
    clear h1 h2 h3 h4 hg2e hg3e hee hp han hbn hnn hpa hpb hanbn
    tauto
  · rw [Graph.edges_addEdge_of_fresh h3 h4, hg3e, List.append_assoc]
    rfl

/-- A successful 2-merge has differently-typed operands. -/
theorem interact2_ptype_ne {a b p : Particle}
    (h : Interact_ABC_2to1_FD a b = .ok p) : a.ptype ≠ b.ptype := by
  intro he
  obtain ⟨ta, na, ia, ra⟩ := a
  obtain ⟨tb, nb, ib, rb⟩ := b
  simp only at he
  subst he
  cases ta <;> exact Except.noConfusion h

/-- The composite name produced by a successful 2-merge. -/
theorem interact2_name_data {a b p : Particle}
    (h : Interact_ABC_2to1_FD a b = .ok p) :
    ∃ letter, letter ∈ ['A', 'B', 'C'] ∧
      p.name.data = [letter, '('] ++ a.name.data ++ [','] ++ b.name.data ++ [')'] := by
  obtain ⟨ta, na, ia, ra⟩ := a
  obtain ⟨tb, nb, ib, rb⟩ := b
  cases ta <;> cases tb <;>
    first
      | exact Except.noConfusion h
      | (have hp := (Except.ok.inj h).symm
         subst hp
         first
          | exact ⟨'A', by decide, rfl⟩
          | exact ⟨'B', by decide, rfl⟩
          | exact ⟨'C', by decide, rfl⟩)

/-- Character counts are additive through a 2-merge for every character other
than the type letters and the punctuation the merge inserts. -/
theorem interact2_ccount {a b p : Particle}
    (h : Interact_ABC_2to1_FD a b = .ok p)
    {c : Char} (hc : c ∉ ['(', ')', ',', 'A', 'B', 'C']) :
    ccount c p.name = ccount c a.name + ccount c b.name := by
  obtain ⟨letter, hlet, hdata⟩ := interact2_name_data h
  have h1 : c ≠ letter := by
    have hlet2 : letter = 'A' ∨ letter = 'B' ∨ letter = 'C' := by simpa using hlet
    rcases hlet2 with rfl | rfl | rfl <;> exact fun he => hc (by rw [he]; decide)
  have h2 : c ≠ '(' := fun he => hc (by rw [he]; decide)
  have h3 : c ≠ ')' := fun he => hc (by rw [he]; decide)
  have h4 : c ≠ ',' := fun he => hc (by rw [he]; decide)
  unfold ccount
  rw [hdata]
  simp [List.count_append, List.count_cons, h1, h2, h3, h4]

set_option maxHeartbeats 1600000 in
/-- Replaying any merge chain from a hygienically named external list keeps
the full bookkeeping invariant. -/
theorem chain_replay (ext : List Particle) (A : Finset Char)
    (hA : ∀ c ∈ A, c ∉ reservedChars)
    (hinit : NameHyg A ext ext) :
    ∀ {ops : List Op} {l : List Particle}, Chain ext ops l →
      ReplayFacts ext A ops l := by
  intro ops l hch
  induction hch with
  | nil =>
    refine ⟨Graph.emptyG, [], [], rfl, rfl, by simp, by simpa using hinit,
      List.nodup_nil, ?_, rfl, ?_⟩
    · intro n
      simp [Graph.emptyG]
    · intro e he
      exact absurd he (List.not_mem_nil e)
  | @step ops' l' i j a b p hch2 hia hib hint ih =>
    obtain ⟨gr, created, consumed, hrun, hclen, hcons, hhyg, hnn, hnm, hel, hee⟩ := ih
    have ha : a ∈ l' := mem_of_getElem?' hia
    have hb : b ∈ l' := mem_of_getElem?' hib
    have hne := interact2_ptype_ne hint
    have hab : a ≠ b := fun he => hne (congrArg Particle.ptype he)
    have haH : a ∈ ext ++ created := hhyg.aliveSub a ha
    have hbH : b ∈ ext ++ created := hhyg.aliveSub b hb
    have h6 : ∀ c ∈ A, c ∉ (['(', ')', ',', 'A', 'B', 'C'] : List Char) := by
      intro c hcA hc6
      apply hA c hcA
      have hsub : ∀ x ∈ (['(', ')', ',', 'A', 'B', 'C'] : List Char),
          x ∈ reservedChars := by
        intro x hx
        simp only [List.mem_cons, List.not_mem_nil, or_false] at hx
        rcases hx with rfl | rfl | rfl | rfl | rfl | rfl <;> decide
      exact hsub c hc6
    have hsum : ∀ c ∈ A, ccount c p.name = ccount c a.name + ccount c b.name :=
      fun c hcA => interact2_ccount hint (h6 c hcA)
    have hplusa : ccount '+' a.name = 0 := (hhyg.clean a haH).2.2
    have hplusb : ccount '+' b.name = 0 := (hhyg.clean b hbH).2.2
    have hplus : ccount '+' p.name = 0 := by
      rw [interact2_ccount hint (by decide), hplusa, hplusb]
    obtain ⟨hhyg2, hfresh⟩ := nameHyg_step hhyg ha hb hab hsum hplus
    have hnamesA : a.name ∈ (ext ++ created).map Particle.name :=
      List.mem_map_of_mem _ haH
    have hnamesB : b.name ∈ (ext ++ created).map Particle.name :=
      List.mem_map_of_mem _ hbH
    have hnamesP : p.name ∉ (ext ++ created).map Particle.name := by
      intro hmem
      obtain ⟨h, hH, hhe⟩ := List.mem_map.1 hmem
      exact hfresh h hH hhe.symm
    have hanbn : a.name ≠ b.name := by
      intro he
      have hd := List.Pairwise.forall
        (fun u v h => by rw [Finset.inter_comm]; exact h)
        hhyg.aliveDisjoint ha hb hab
      have hse : suppOf A a.name = suppOf A b.name := by rw [he]
      rw [hse, Finset.inter_self] at hd
      obtain ⟨c, hc⟩ := (hhyg.clean b hbH).1
      rw [hd] at hc
      exact absurd hc (Finset.not_mem_empty c)
    obtain ⟨hnodup3, hmem3, hedges3⟩ :=
      pairStep_graph hnn hee hnamesP hnamesA hnamesB hanbn
    have hbe : b ∈ l'.erase a := (List.mem_erase_of_ne (fun he => hab he.symm)).2 hb
    have h1 : l'.Perm (a :: b :: (l'.erase a).erase b) :=
      (List.perm_cons_erase ha).trans (List.Perm.cons a (List.perm_cons_erase hbe))
    have hrun' : replayG ⟨ext, Graph.emptyG⟩ (ops' ++ [Op.pair i j]) =
        .ok ⟨p :: (l'.erase a).erase b,
          ((((gr.addNode a.name).addNode b.name).addNode p.name).addEdge
            p.name a.name).addEdge p.name b.name⟩ := by
      rw [replayG_append, hrun]
      show do_next_operation ⟨l', gr⟩ (Op.pair i j) = _
      simp only [do_next_operation, hia, hib, hint, exceptBind_ok]
      rfl
    refine ⟨_, created ++ [p], consumed ++ [a, b], hrun', ?_, ?_, ?_,
      hnodup3, ?_, ?_, ?_⟩
    · simp [hclen]
    · have h2 : ((l'.erase a).erase b ++ (consumed ++ [a, b])).Perm (l' ++ consumed) := by
        refine (List.Perm.append_left _ List.perm_append_comm).trans ?_
        rw [← List.append_assoc]
        refine (List.Perm.append_right consumed List.perm_append_comm).trans ?_
        exact List.Perm.append_right consumed h1.symm
      show (p :: ((l'.erase a).erase b ++ (consumed ++ [a, b]))).Perm
        (ext ++ (created ++ [p]))
      refine (List.Perm.cons p (h2.trans hcons)).trans ?_
      rw [← List.append_assoc]
      exact (List.perm_append_singleton p (ext ++ created)).symm
    · rw [← List.append_assoc]
      exact hhyg2
    · intro n
      rw [hmem3 n, hnm n]
      clear hrun' hnodup3 hmem3 hedges3 hee hnm hel hrun hhyg hhyg2 hcons
      clear hfresh hnamesP hnamesA hnamesB hsum h6 hinit hA h1 hplus hplusa hplusb
      simp only [List.map_append, List.mem_append, List.map_cons, List.map_nil,
        List.mem_cons, List.not_mem_nil, or_false, List.mem_singleton]
      tauto
    · rw [hedges3]
      simp only [List.length_append, hel]
      simp
      omega
    · intro e he
      clear hrun' hnodup3 hmem3 hnm hel hrun hhyg hhyg2 hcons
      clear hfresh hnamesP hsum h6 hinit hA h1 hplus hplusa hplusb
      rw [hedges3] at he
      have hTp : p.name ∈ List.map Particle.name (ext ++ (created ++ [p])) := by
        simp
      have hsub : ∀ n, n ∈ List.map Particle.name (ext ++ created) →
          n ∈ List.map Particle.name (ext ++ (created ++ [p])) := by
        intro n hn
        rw [← List.append_assoc, List.map_append]
        exact List.mem_append_left _ hn
      rcases List.mem_append.1 he with he | he
      · obtain ⟨h1e, h2e⟩ := hee e he
        exact ⟨hsub _ h1e, hsub _ h2e⟩
      · rcases List.mem_cons.1 he with rfl | he
        · exact ⟨hTp, hsub _ hnamesA⟩
        · rw [List.mem_singleton.1 he]
          exact ⟨hTp, hsub _ hnamesB⟩

/-- Names with disjoint atom supports differ when one support is nonempty. -/
theorem names_ne_of_disjoint {A : Finset Char} {x y : Particle}
    (hd : suppOf A x.name ∩ suppOf A y.name = ∅)
    (hne : (suppOf A y.name).Nonempty) : x.name ≠ y.name := by
  intro he
  rw [he, Finset.inter_self] at hd
  obtain ⟨c, hc⟩ := hne
  rw [hd] at hc
  exact absurd hc (Finset.not_mem_empty c)

set_option maxHeartbeats 1000000 in
/-- Graph bookkeeping of the terminal triple merge: the three operand names
and the fresh compound vertex join the node list and exactly the three
compound edges join the edge list. -/
theorem tripleStep_graph {gr : Graph} {names : List String} {n1 n2 n3 v : String}
    (hnn : gr.nodes.Nodup)
    (hee : ∀ e ∈ gr.edges, e.1 ∈ names ∧ e.2 ∈ names)
    (hv : v ∉ names) (h1 : n1 ∈ names) (h2 : n2 ∈ names)
    (h12 : n1 ≠ n2) (h13 : n1 ≠ n3) (h23 : n2 ≠ n3) :
    (((((gr.addNodes [n1, n2, n3]).addNode v).addEdge n1 v).addEdge n2 v).addEdge n3 v).nodes.Nodup ∧
    (∀ n, n ∈ (((((gr.addNodes [n1, n2, n3]).addNode v).addEdge n1 v).addEdge n2 v).addEdge n3 v).nodes ↔
      n ∈ gr.nodes ∨ n = n1 ∨ n = n2 ∨ n = n3 ∨ n = v) ∧
    (((((gr.addNodes [n1, n2, n3]).addNode v).addEdge n1 v).addEdge n2 v).addEdge n3 v).edges =
      gr.edges ++ [(n1, v), (n2, v), (n3, v)] := by
  have hvn1 : v ≠ n1 := fun he => hv (he ▸ h1)
  have hvn2 : v ≠ n2 := fun he => hv (he ▸ h2)
  have hg0e : ((gr.addNodes [n1, n2, n3]).addNode v).edges = gr.edges := by
    rw [Graph.edges_addNode, Graph.edges_addNodes]
  have ha1 : (n1, v) ∉ ((gr.addNodes [n1, n2, n3]).addNode v).edges := by
    rw [hg0e]
    intro hmem
    exact hv (hee _ hmem).2
  have hb1 : (v, n1) ∉ ((gr.addNodes [n1, n2, n3]).addNode v).edges := by
    rw [hg0e]
    intro hmem
    exact hv (hee _ hmem).1
  have hg1e : (((gr.addNodes [n1, n2, n3]).addNode v).addEdge n1 v).edges =
      gr.edges ++ [(n1, v)] := by
    rw [Graph.edges_addEdge_of_fresh ha1 hb1, hg0e]
  have ha2 : (n2, v) ∉ (((gr.addNodes [n1, n2, n3]).addNode v).addEdge n1 v).edges := by
    rw [hg1e]
    intro hmem
    rcases List.mem_append.1 hmem with hmem | hmem
    · exact hv (hee _ hmem).2
    · exact h12 (congrArg Prod.fst (List.mem_singleton.1 hmem)).symm
  have hb2 : (v, n2) ∉ (((gr.addNodes [n1, n2, n3]).addNode v).addEdge n1 v).edges := by
    rw [hg1e]
    intro hmem
    rcases List.mem_append.1 hmem with hmem | hmem
    · exact hv (hee _ hmem).1
    · exact hvn1 (congrArg Prod.fst (List.mem_singleton.1 hmem))
  have hg2e : ((((gr.addNodes [n1, n2, n3]).addNode v).addEdge n1 v).addEdge n2 v).edges =
      gr.edges ++ [(n1, v), (n2, v)] := by
    rw [Graph.edges_addEdge_of_fresh ha2 hb2, hg1e, List.append_assoc]
    rfl
  have ha3 : (n3, v) ∉ ((((gr.addNodes [n1, n2, n3]).addNode v).addEdge n1 v).addEdge n2 v).edges := by
    rw [hg2e]
    intro hmem
    rcases List.mem_append.1 hmem with hmem | hmem
    · exact hv (hee _ hmem).2
    · rcases List.mem_cons.1 hmem with he | he
      · exact h13 (congrArg Prod.fst he).symm
      · exact h23 (congrArg Prod.fst (List.mem_singleton.1 he)).symm
  have hb3 : (v, n3) ∉ ((((gr.addNodes [n1, n2, n3]).addNode v).addEdge n1 v).addEdge n2 v).edges := by
    rw [hg2e]
    intro hmem
    rcases List.mem_append.1 hmem with hmem | hmem
    · exact hv (hee _ hmem).1
    · rcases List.mem_cons.1 hmem with he | he
      · exact hvn1 (congrArg Prod.fst he)
      · exact hvn2 (congrArg Prod.fst (List.mem_singleton.1 he))
  refine ⟨?_, ?_, ?_⟩
  · exact Graph.nodup_addEdge _ _ (Graph.nodup_addEdge _ _ (Graph.nodup_addEdge _ _
      (Graph.nodup_addNode _ (Graph.nodup_addNodes _ hnn))))
  · intro n
    rw [Graph.mem_addEdge, Graph.mem_addEdge, Graph.mem_addEdge, Graph.mem_addNode,
      Graph.mem_addNodes]
    clear ha1 hb1 ha2 hb2 ha3 hb3 hg0e hg1e hg2e hee hnn hv h1 h2 h12 h13 h23 hvn1 hvn2
    simp only [List.mem_cons, List.not_mem_nil, or_false]
    tauto
  · rw [Graph.edges_addEdge_of_fresh ha3 hb3, hg2e, List.append_assoc]
    rfl

/-- One-step unfolding of the `get_FD` loop at a pair operation with a
nonempty remaining queue. -/
theorem get_FD_loop_pair (n a b : Nat) (q : Op) (qs : List Op) (st : FDState) :
    get_FD_loop (n + 1) (Op.pair a b) (q :: qs) st =
      do_next_operation st (Op.pair a b) >>= fun st' => get_FD_loop n q qs st' := rfl

/-- One-step unfolding of the `get_FD` loop at a triple operation. -/
theorem get_FD_loop_triple (n a b c : Nat) (queue : List Op) (st : FDState) :
    get_FD_loop (n + 1) (Op.triple a b c) queue st =
      do_next_operation st (Op.triple a b c) >>= fun st' =>
        get_FD_loop n (Op.triple a b c) queue st' := rfl

/-- One-step unfolding of the straight-line replay. -/
theorem replayG_cons (op : Op) (ops : List Op) (st : FDState) :
    replayG st (op :: ops) =
      do_next_operation st op >>= fun st' => replayG st' ops := rfl

/-- On an operation list of pair operations closed by one final triple, the
cursor bookkeeping of `get_FD` agrees with the straight-line replay. -/
theorem get_FD_loop_eq (i j k : Nat) (ops1 : List Op) :
    (∀ op ∈ ops1, ∃ a b, op = Op.pair a b) →
    ∀ (st : FDState) (cur : Op) (rest : List Op),
      cur :: rest = ops1 ++ [Op.triple i j k] →
      get_FD_loop (ops1.length + 1) cur rest st =
        (replayG st (cur :: rest)).map (fun s => s.graph) := by
  induction ops1 with
  | nil =>
    intro _ st cur rest hdec
    simp only [List.nil_append] at hdec
    injection hdec with hd1 hd2
    subst hd1
    subst hd2
    rw [get_FD_loop_triple, replayG_cons]
    cases h : do_next_operation st (Op.triple i j k) with
    | error e => rw [exceptBind_error, exceptBind_error]; rfl
    | ok st' => rw [exceptBind_ok, exceptBind_ok]; rfl
  | cons o os ih =>
    intro hall st cur rest hdec
    obtain ⟨a, b, rfl⟩ := hall o (List.mem_cons_self o os)
    simp only [List.cons_append] at hdec
    injection hdec with hd1 hd2
    subst hd1
    subst hd2
    cases hq : os ++ [Op.triple i j k] with
    | nil => exact absurd hq (by simp)
    | cons q qs =>
      rw [get_FD_loop_pair, replayG_cons]
      cases h : do_next_operation st (Op.pair a b) with
      | error e => rw [exceptBind_error, exceptBind_error]; rfl
      | ok st' =>
        rw [exceptBind_ok, exceptBind_ok]
        show get_FD_loop (os.length + 1) q qs st' = _
        exact ih (fun op hop => hall op (List.mem_cons_of_mem _ hop)) st' q qs hq.symm

/-- On the operation lists the enumerator emits, `get_FD` is the straight-line
replay of the operations followed by projection to the graph. -/
theorem get_FD_eq_replay (ext : List Particle) (ops0 : List Op) (i j k : Nat)
    (hall : ∀ op ∈ ops0, ∃ a b, op = Op.pair a b) :
    get_FD ext (ops0 ++ [Op.triple i j k]) =
      (replayG ⟨ext, Graph.emptyG⟩ (ops0 ++ [Op.triple i j k])).map
        (fun s => s.graph) := by
  cases hq : ops0 ++ [Op.triple i j k] with
  | nil => exact absurd hq (by simp)
  | cons op0 rest =>
    have hlen : (op0 :: rest).length = ops0.length + 1 := by
      rw [← hq]
      simp
    show get_FD_loop (op0 :: rest).length op0 rest ⟨ext, Graph.emptyG⟩ = _
    rw [hlen]
    exact get_FD_loop_eq i j k ops0 hall ⟨ext, Graph.emptyG⟩ op0 rest hq.symm

/-- `Except.map` on a success. -/
theorem exceptMap_ok {e a b : Type} (f : a → b) (x : a) :
    (Except.ok x : Except e a).map f = .ok (f x) := rfl

/-- Counterexample to C7's node count: for the minimal branch (N = 3, replay
of the single terminal triple) the graph holds the three external nodes plus
the compound node — 3 non-compound nodes, not the claimed N - 1 = 2, so the
total is 4 rather than (N - 1) + 1 = 3. -/
theorem C7_counterexample :
    branch_calculator exList3 = .ok [("branch ", [Op.triple 0 1 2])] ∧
    get_FD exList3 [Op.triple 0 1 2] =
      .ok ⟨["a", "b", "c", "b+c"], [("a", "b+c"), ("b", "b+c"), ("c", "b+c")]⟩ ∧
    ((["a", "b", "c", "b+c"] : List String).filter
      (fun n => ccount '+' n = 0)).length = 3 ∧
    exList3.length - 1 = 2 ∧
    (4 : Nat) ≠ (exList3.length - 1) + 1 := by
  refine ⟨by decide, by decide, by decide, by decide, by decide⟩

set_option maxHeartbeats 1000000 in
/-- C7 (amended): for every branch returned by the enumerator on a
hygienically named external list of N ≥ 3 particles, replaying the branch's
operations through `get_FD` succeeds and the graph contains exactly
2N - 3 non-compound nodes plus the one terminal compound node (2N - 2 nodes
in total, not (N - 1) + 1), and exactly 2(N - 3) + 3 edges — two per pair
merge and three for the terminal triple. -/
theorem C7_graph_counts (ps : List Particle) (fd : List (String × List Op))
    (b : String × List Op)
    (hclean : CleanAtoms ps) (hN : 3 ≤ ps.length)
    (heq : branch_calculator ps = .ok fd) (hb : b ∈ fd) :
    ∃ g : Graph,
      get_FD ps b.2 = .ok g ∧
      g.nodes.length = 2 * ps.length - 2 ∧
      (g.nodes.filter (fun n => 0 < ccount '+' n)).length = 1 ∧
      (g.nodes.filter (fun n => ccount '+' n = 0)).length = 2 * ps.length - 3 ∧
      g.edges.length = 2 * (ps.length - 3) + 3 := by
  obtain ⟨hlab, ops0, p1, p2, p3, s, hb2, hops, hchain, hint3⟩ :=
    branch_calculator_fin ps fd hN heq b hb
  obtain ⟨hA, hinit⟩ := cleanAtoms_base ps hclean
  obtain ⟨gr, created, consumed, hrun, hclen, hcons, hhyg, hnn, hnm, hel, hee⟩ :=
    chain_replay ps (atomSet ps) hA hinit hchain
  obtain ⟨hlen0, hpairs⟩ := hops
  have hp1H : p1 ∈ ps ++ created := hhyg.aliveSub p1 (by simp)
  have hp2H : p2 ∈ ps ++ created := hhyg.aliveSub p2 (by simp)
  have hp3H : p3 ∈ ps ++ created := hhyg.aliveSub p3 (by simp)
  have hdp := hhyg.aliveDisjoint
  rw [List.pairwise_cons] at hdp
  obtain ⟨h1d, hdp⟩ := hdp
  rw [List.pairwise_cons] at hdp
  obtain ⟨h2d, _⟩ := hdp
  have hne2 : (suppOf (atomSet ps) p2.name).Nonempty := (hhyg.clean p2 hp2H).1
  have hne3 : (suppOf (atomSet ps) p3.name).Nonempty := (hhyg.clean p3 hp3H).1
  have h12 : p1.name ≠ p2.name := names_ne_of_disjoint (h1d p2 (by simp)) hne2
  have h13 : p1.name ≠ p3.name := names_ne_of_disjoint (h1d p3 (by simp)) hne3
  have h23 : p2.name ≠ p3.name := names_ne_of_disjoint (h2d p3 (by simp)) hne3
  have hvplus : 0 < ccount '+' (p2.name ++ "+" ++ p3.name) := by
    unfold ccount
    rw [String.data_append, String.data_append, List.count_append, List.count_append]
    have hone : (("+" : String).data).count '+' = 1 := by decide
    rw [hone]
    omega
  have hvfresh : (p2.name ++ "+" ++ p3.name) ∉ (ps ++ created).map Particle.name := by
    intro hmem
    obtain ⟨h, hH, hhe⟩ := List.mem_map.1 hmem
    have h0 : ccount '+' h.name = 0 := (hhyg.clean h hH).2.2
    rw [hhe] at h0
    omega
  have hn1 : p1.name ∈ (ps ++ created).map Particle.name :=
    List.mem_map_of_mem _ hp1H
  have hn2 : p2.name ∈ (ps ++ created).map Particle.name :=
    List.mem_map_of_mem _ hp2H
  have hstep : do_next_operation ⟨[p1, p2, p3], gr⟩ (Op.triple 0 1 2) =
      .ok ⟨[p1, p2, p3],
        ((((gr.addNodes [p1.name, p2.name, p3.name]).addNode
              (p2.name ++ "+" ++ p3.name)).addEdge p1.name
            (p2.name ++ "+" ++ p3.name)).addEdge p2.name
          (p2.name ++ "+" ++ p3.name)).addEdge p3.name
        (p2.name ++ "+" ++ p3.name)⟩ := by
    have hred : do_next_operation ⟨[p1, p2, p3], gr⟩ (Op.triple 0 1 2) =
        Interact_ABC_3to0_FD p1 p2 p3 >>= fun _ =>
          .ok ⟨[p1, p2, p3],
            ((((gr.addNodes [p1.name, p2.name, p3.name]).addNode
                  (p2.name ++ "+" ++ p3.name)).addEdge p1.name
                (p2.name ++ "+" ++ p3.name)).addEdge p2.name
              (p2.name ++ "+" ++ p3.name)).addEdge p3.name
            (p2.name ++ "+" ++ p3.name)⟩ := rfl
    rw [hred, hint3, exceptBind_ok]
  have hrun2 : replayG ⟨ps, Graph.emptyG⟩ (ops0 ++ [Op.triple 0 1 2]) =
      .ok ⟨[p1, p2, p3],
        ((((gr.addNodes [p1.name, p2.name, p3.name]).addNode
              (p2.name ++ "+" ++ p3.name)).addEdge p1.name
            (p2.name ++ "+" ++ p3.name)).addEdge p2.name
          (p2.name ++ "+" ++ p3.name)).addEdge p3.name
        (p2.name ++ "+" ++ p3.name)⟩ := by
    rw [replayG_append, hrun]
    exact hstep
  have hget : get_FD ps b.2 =
      .ok (((((gr.addNodes [p1.name, p2.name, p3.name]).addNode
              (p2.name ++ "+" ++ p3.name)).addEdge p1.name
            (p2.name ++ "+" ++ p3.name)).addEdge p2.name
          (p2.name ++ "+" ++ p3.name)).addEdge p3.name
        (p2.name ++ "+" ++ p3.name)) := by
    rw [hb2, get_FD_eq_replay ps ops0 0 1 2 hpairs, hrun2, exceptMap_ok]
  obtain ⟨hnodup', hmem', hedges'⟩ :=
    tripleStep_graph hnn hee hvfresh hn1 hn2 h12 h13 h23
  have hsubCC : ∀ m ∈ (created ++ consumed).map Particle.name,
      m ∈ (ps ++ created).map Particle.name := by
    intro m hm
    obtain ⟨h, hh, rfl⟩ := List.mem_map.1 hm
    refine List.mem_map_of_mem _ ?_
    rcases List.mem_append.1 hh with hh | hh
    · exact List.mem_append_right _ hh
    · exact hcons.mem_iff.1 (List.mem_append_right _ hh)
  have hmemall : ∀ n,
      n ∈ (((((gr.addNodes [p1.name, p2.name, p3.name]).addNode
              (p2.name ++ "+" ++ p3.name)).addEdge p1.name
            (p2.name ++ "+" ++ p3.name)).addEdge p2.name
          (p2.name ++ "+" ++ p3.name)).addEdge p3.name
        (p2.name ++ "+" ++ p3.name)).nodes ↔
      n ∈ ((ps ++ created).map Particle.name ++ [p2.name ++ "+" ++ p3.name]) := by
    intro n
    rw [hmem' n, hnm n, List.mem_append, List.mem_singleton]
    constructor
    · rintro (hn | rfl | rfl | rfl | rfl)
      · exact Or.inl (hsubCC n hn)
      · exact Or.inl hn1
      · exact Or.inl hn2
      · exact Or.inl (List.mem_map_of_mem _ hp3H)
      · exact Or.inr rfl
    · rintro (hn | rfl)
      · obtain ⟨h, hh, rfl⟩ := List.mem_map.1 hn
        have hh2 : h ∈ [p1, p2, p3] ++ consumed := hcons.symm.mem_iff.1 hh
        rcases List.mem_append.1 hh2 with hh3 | hh3
        · rcases List.mem_cons.1 hh3 with rfl | hh3
          · exact Or.inr (Or.inl rfl)
          rcases List.mem_cons.1 hh3 with rfl | hh3
          · exact Or.inr (Or.inr (Or.inl rfl))
          rcases List.mem_cons.1 hh3 with rfl | hh3
          · exact Or.inr (Or.inr (Or.inr (Or.inl rfl)))
          · exact absurd hh3 (List.not_mem_nil h)
        · exact Or.inl (List.mem_map_of_mem _ (List.mem_append_right _ hh3))
      · exact Or.inr (Or.inr (Or.inr (Or.inr rfl)))
  have hpw : (ps ++ created).Pairwise (fun p q => p.name ≠ q.name) :=
    hhyg.distinctSupp.imp (fun hne he => hne (by rw [he]))
  have hLnd : ((ps ++ created).map Particle.name).Nodup := List.pairwise_map.2 hpw
  have hLv : ((ps ++ created).map Particle.name ++
      [p2.name ++ "+" ++ p3.name]).Nodup := by
    rw [List.nodup_append]
    exact ⟨hLnd, List.nodup_singleton _,
      fun n hnL hnV => hvfresh (by rwa [List.mem_singleton.1 hnV] at hnL)⟩
  have hperm := (List.perm_ext_iff_of_nodup hnodup' hLv).2 hmemall
  have hlenL : ((ps ++ created).map Particle.name).length =
      ps.length + (ps.length - 3) := by
    rw [List.length_map, List.length_append, hclen, hlen0]
  refine ⟨_, hget, ?_, ?_, ?_, ?_⟩
  · rw [hperm.length_eq, List.length_append, hlenL]
    simp only [List.length_singleton]
    omega
  · rw [(hperm.filter _).length_eq, List.filter_append]
    have hf1 : ((ps ++ created).map Particle.name).filter
        (fun n => 0 < ccount '+' n) = [] := by
      rw [List.filter_eq_nil_iff]
      intro m hm
      obtain ⟨h, hh, rfl⟩ := List.mem_map.1 hm
      simp [(hhyg.clean h hh).2.2]
    have hf2 : ([p2.name ++ "+" ++ p3.name] : List String).filter
        (fun n => 0 < ccount '+' n) = [p2.name ++ "+" ++ p3.name] := by
      rw [List.filter_eq_self]
      intro m hm
      rw [List.mem_singleton.1 hm]
      simpa using hvplus
    rw [hf1, hf2]
    rfl
  · rw [(hperm.filter _).length_eq, List.filter_append]
    have hf1 : ((ps ++ created).map Particle.name).filter
        (fun n => ccount '+' n = 0) = (ps ++ created).map Particle.name := by
      rw [List.filter_eq_self]
      intro m hm
      obtain ⟨h, hh, rfl⟩ := List.mem_map.1 hm
      simp [(hhyg.clean h hh).2.2]
    have hf2 : ([p2.name ++ "+" ++ p3.name] : List String).filter
        (fun n => ccount '+' n = 0) = [] := by
      rw [List.filter_eq_nil_iff]
      intro m hm
      rw [List.mem_singleton.1 hm]
      simp only [decide_eq_true_eq]
      omega
    rw [hf1, hf2, List.append_nil, hlenL]
    omega
  · rw [hedges', List.length_append, hel, hlen0]
    rfl

/-- Closed instance of the amended C7 count theorem at the three-particle
process. -/
theorem C7_graph_counts_witness :
    ∃ g : Graph,
      get_FD exList3 ("branch ", [Op.triple 0 1 2]).2 = .ok g ∧
      g.nodes.length = 2 * exList3.length - 2 ∧
      (g.nodes.filter (fun n => 0 < ccount '+' n)).length = 1 ∧
      (g.nodes.filter (fun n => ccount '+' n = 0)).length = 2 * exList3.length - 3 ∧
      g.edges.length = 2 * (exList3.length - 3) + 3 :=
  C7_graph_counts exList3 [("branch ", [Op.triple 0 1 2])]
    ("branch ", [Op.triple 0 1 2])
    ⟨fun p hp => by
        rcases List.mem_cons.1 hp with rfl | hp
        · exact ⟨'a', by decide, by decide⟩
        rcases List.mem_cons.1 hp with rfl | hp
        · exact ⟨'b', by decide, by decide⟩
        rcases List.mem_cons.1 hp with rfl | hp
        · exact ⟨'c', by decide, by decide⟩
        · exact absurd hp (List.not_mem_nil p),
      by decide⟩
    (by decide) (by decide) (by decide)
